import Mathlib

/-!
Verification of the JSON comparison engine of `json_compare/comparator.py`
(class `JSONComparator`).

The comparator walks two parsed JSON documents, records human-readable diff
entries into a `LogProcessor` and supports three public entry points
(`compare_with_right`, `compare_with_left`, `full_compare`).  Parsed JSON
values are Python values (`None`, `bool`, numbers, `str`, `list`, `dict`);
the comparison relies on Python's `==`, `in`, `len`, indexing and
`str.replace` / `re.sub` semantics, all of which are embedded explicitly
below.  JSON numeric literals are modelled as integers (all numeric
comparisons in the source are Python `==`; the claims only involve integral
literals).

The collaborator class `LogProcessor` (module `json_compare.log_processor`)
is not part of the sources; its path-joining and entry-recording behaviour
is modelled from the spec where indicated.
-/

namespace JsonCompare

/-- Model of a parsed JSON document as loaded by `json.load`: `None`, `bool`,
numbers, `str`, `list` and (insertion-ordered) `dict` with string keys. -/
inductive PyVal where
  | null
  | bool (b : Bool)
  | num (n : Int)
  | str (s : String)
  | arr (elems : List PyVal)
  | obj (entries : List (String × PyVal))
deriving Repr

/-- Lookup of a string key in a Python dict modelled as an association list
(first binding wins; real dicts have unique keys). -/
def assocLookup (k : String) : List (String × PyVal) → Option PyVal
  | [] => none
  | (k2, v) :: rest => if k2 == k then some v else assocLookup k rest

mutual

/-- Python `==` on parsed JSON values.  Notably `True == 1` and `False == 0`
(bool is an int subtype); a number and a string are never equal; lists and
dicts compare structurally. -/
def pyEq : PyVal → PyVal → Bool
  | .null, .null => true
  | .bool a, .bool b => a == b
  | .bool a, .num n => n == (if a then 1 else 0)
  | .num n, .bool a => n == (if a then 1 else 0)
  | .num a, .num b => a == b
  | .str a, .str b => a == b
  | .arr xs, .arr ys => pyEqList xs ys
  | .obj xs, .obj ys => xs.length == ys.length && pyEqEntries xs ys
  | _, _ => false

/-- Python `==` on lists: equal lengths and pointwise equal elements. -/
def pyEqList : List PyVal → List PyVal → Bool
  | [], [] => true
  | x :: xs, y :: ys => pyEq x y && pyEqList xs ys
  | _, _ => false

/-- Python dict `==` (after the length check): every key of the first dict is
present in the second with an equal value. -/
def pyEqEntries : List (String × PyVal) → List (String × PyVal) → Bool
  | [], _ => true
  | (k, v) :: rest, ys =>
    (match assocLookup k ys with
     | some w => pyEq v w
     | none => false) && pyEqEntries rest ys

end

/-- Keys of an association list are pairwise distinct. -/
def nodupKeysB : List (String × PyVal) → Bool
  | [] => true
  | (k, _) :: rest => !(rest.any (fun kv => kv.1 == k)) && nodupKeysB rest

mutual

/-- Well-formedness of a parsed document: every nested dict has distinct
keys (guaranteed for anything produced by `json.load`). -/
def wfB : PyVal → Bool
  | .arr xs => wfListB xs
  | .obj kvs => nodupKeysB kvs && wfEntriesB kvs
  | _ => true

/-- All elements well-formed. -/
def wfListB : List PyVal → Bool
  | [] => true
  | x :: xs => wfB x && wfListB xs

/-- All values of an association list well-formed. -/
def wfEntriesB : List (String × PyVal) → Bool
  | [] => true
  | (_, v) :: rest => wfB v && wfEntriesB rest

end

/-! ### String primitives: Python `str.replace`, `str.removeprefix`,
and the `re.sub("\[[^()]*\]", "", path)` index stripper. -/

/-- Boolean list-prefix test. -/
def isPrefixL : List Char → List Char → Bool
  | [], _ => true
  | _ :: _, [] => false
  | a :: as, b :: bs => a == b && isPrefixL as bs

/-- Boolean substring (contiguous) test: some suffix starts with `pat`. -/
def containsSub (pat : List Char) : List Char → Bool
  | [] => isPrefixL pat []
  | c :: t => isPrefixL pat (c :: t) || containsSub pat t

/-- Python `s.replace(pat, rep)` on character lists: scan left to right,
replace each non-overlapping occurrence of `pat`, resume after the inserted
replacement.  (Python treats an empty pattern specially; every pattern used
by the comparator is non-empty, and an empty pattern is modelled as a
no-op here.) -/
def pyReplaceLGo (pat rep : List Char) : List Char → Nat → List Char
  | [], _ => []
  | _ :: t, k + 1 => pyReplaceLGo pat rep t k
  | c :: t, 0 =>
    if pat ≠ [] ∧ isPrefixL pat (c :: t) = true then
      rep ++ pyReplaceLGo pat rep t (pat.length - 1)
    else
      c :: pyReplaceLGo pat rep t 0

/-- `pyReplaceL pat rep s` is the scan started with nothing owed; the worker
`pyReplaceLGo` carries the number of characters still owed to an
already-emitted replacement (it equals the scan restarted on `s.drop k`,
see `pyReplaceLGo_skip`), which keeps the recursion structural so that the
kernel can evaluate it. -/
def pyReplaceL (pat rep : List Char) (s : List Char) : List Char :=
  pyReplaceLGo pat rep s 0

/-- Index of the last `']'` in a character list, if any. -/
def lastCloseIdx : List Char → Option Nat
  | [] => none
  | c :: t =>
    match lastCloseIdx t with
    | some j => some (j + 1)
    | none => if c == ']' then some 0 else none

/-- Character other than the parentheses excluded by `[^()]`. -/
def parenFreeChar (c : Char) : Bool := !(c == '(' || c == ')')

/-- Attempt of the regex `\[[^()]*\]` at a position whose `'['` has already
been consumed and whose remaining input is `t`: the greedy interior stops at
the last `']'` reachable without crossing a parenthesis.  Returns the number
of characters of `t` consumed by the rest of the match. -/
def bracketMatchLen (t : List Char) : Option Nat :=
  match lastCloseIdx (t.takeWhile parenFreeChar) with
  | some j => some (j + 1)
  | none => none

/-- Model of `re.sub("\[[^()]*\]", "", path)`: delete every match of the
pattern, scanning left to right. -/
def stripIdxLGo : List Char → Nat → List Char
  | [], _ => []
  | _ :: t, k + 1 => stripIdxLGo t k
  | c :: t, 0 =>
    if c == '[' then
      match bracketMatchLen t with
      | some n => stripIdxLGo t n
      | none => c :: stripIdxLGo t 0
    else c :: stripIdxLGo t 0

/-- The stripper itself starts with nothing owed; the worker's skip counter
(characters of a matched bracket segment still to be discarded, see
`stripIdxLGo_skip`) keeps the recursion structural so that the kernel can
evaluate it. -/
def stripIdxL (s : List Char) : List Char := stripIdxLGo s 0

/-- Python `s.replace(pat, rep)` on strings. -/
def pyReplace (s pat rep : String) : String := ⟨pyReplaceL pat.data rep.data s.data⟩

/-- Result of `re.sub("\[[^()]*\]", "", s)` on strings. -/
def stripIndices (s : String) : String := ⟨stripIdxL s.data⟩

/-- Python `s.removeprefix(pre)`. -/
def pyRemovePre (s pre : String) : String :=
  if isPrefixL pre.data s.data then ⟨s.data.drop pre.data.length⟩ else s

/-- Boolean substring test on strings. -/
def containsSubStr (pat s : String) : Bool := containsSub pat.data s.data

/-! ### Python dynamic primitives used by the comparator -/

/-- Exceptions the comparator can raise while traversing. -/
inductive PyErr where
  | indexError
  | keyError
  | typeError
  | attributeError
  | runtimeError
deriving Repr, DecidableEq

/-- Python `len(x)`: defined for `str`, `list` and `dict`; `TypeError`
otherwise. -/
def pyLen : PyVal → Except PyErr Nat
  | .str s => .ok s.data.length
  | .arr xs => .ok xs.length
  | .obj kvs => .ok kvs.length
  | _ => .error .typeError

/-- Python `key in x` for a string `key`: key membership for dicts, element
equality for lists, substring test for strings, `TypeError` otherwise. -/
def pyContains (x : PyVal) (key : String) : Except PyErr Bool :=
  match x with
  | .obj kvs => .ok (kvs.any (fun kv => kv.1 == key))
  | .arr xs => .ok (xs.any (fun e => pyEq e (.str key)))
  | .str s => .ok (containsSub key.data s.data)
  | _ => .error .typeError

/-- Python `x[key]` for a string `key`: dict lookup (`KeyError` when absent);
`TypeError` for lists, strings and scalars. -/
def pyGetStrKey (x : PyVal) (key : String) : Except PyErr PyVal :=
  match x with
  | .obj kvs =>
    match assocLookup key kvs with
    | some v => .ok v
    | none => .error .keyError
  | _ => .error .typeError

/-- Python `x[i]` for a non-negative integer `i`: list/str indexing with
`IndexError` past the end; `KeyError` for dicts (whose keys are strings);
`TypeError` for scalars. -/
def pyGetIdx (x : PyVal) (i : Nat) : Except PyErr PyVal :=
  match x with
  | .arr xs =>
    match xs.get? i with
    | some v => .ok v
    | none => .error .indexError
  | .str s =>
    match s.data.get? i with
    | some c => .ok (.str ⟨[c]⟩)
    | none => .error .indexError
  | .obj _ => .error .keyError
  | _ => .error .typeError

/-- Python `x.get(key)` (`dict.get`, one-argument form): the value when the
key is present, `None` when absent; `AttributeError` when `x` is not a
dict. -/
def pyGet (x : PyVal) (key : String) : Except PyErr PyVal :=
  match x with
  | .obj kvs => .ok ((assocLookup key kvs).getD .null)
  | _ => .error .attributeError

/-- Elements produced by `enumerate(x)` for an iterable `x` (a list, a dict
— which iterates its keys — or a str, which iterates its one-character
substrings).  Only consulted after a successful `len(x)`, which has already
raised `TypeError` for non-iterables. -/
def pyElems : PyVal → List PyVal
  | .arr xs => xs
  | .obj kvs => kvs.map (fun kv => .str kv.1)
  | .str s => s.data.map (fun c => .str ⟨[c]⟩)
  | _ => []

/-- Keys/characters produced by iterating a non-list iterable (dict or
str): the same elements as `pyElems`, as bare strings. -/
def strElems : PyVal → List String
  | .obj kvs => kvs.map (fun kv => kv.1)
  | .str s => s.data.map (fun c => ⟨[c]⟩)
  | _ => []

/-! ### Diff Recorder model -/

/-- Modelled from the spec: the Diff Recorder (`LogProcessor`, module
`json_compare.log_processor`, absent from the sources) appends one line per
discovered difference; each line deterministically encodes the diff kind,
the cursor path and the relevant value(s).  Entries are modelled
structurally.  The `missingArrayItem` kind carries the optional target
property of its keyed-mode overload. -/
inductive Entry where
  | missingProperty (path : String)
  | incorrectType (path : String) (expectedSample actualValue : PyVal)
  | unequalValues (path : String) (expValue actValue : PyVal)
  | missingArrayItem (path : String) (expValue : PyVal) (targetProp : Option String)
  | lackOfArrayItems (path : String) (expLen actLen : Nat)
  | exceedingArrayItems (path : String) (expLen actLen : Nat)
deriving Repr

/-- Modelled from the spec: `setup_path(parentPath, segment)` of the Diff
Recorder advances the cursor to the child path, joining the segment to the
parent with a dot (as in the documented target-path format
`DATA.cats.<array>.id`). -/
def setupPath (itemPath segment : String) : String := itemPath ++ "." ++ segment

/-- Result of a comparison call: the entries appended to the log, in order,
and the exception that aborted the traversal, if any. -/
abbrev CompRes := List Entry × Option PyErr

/-- Comparison configuration as held on the comparator instance:
`target_property`, `properties_to_ignore`, and whether the instance carries
a `target_key_path` attribute (`hasattr(self, "target_key_path")` — never
set by any code of the class). -/
structure Ctx where
  targetProperty : String
  propertiesToIgnore : List String
  hasTargetKeyPath : Bool
deriving Repr

/-- The method `__key_to_ignore`: strip bracketed indices from the cursor
path, rewrite every occurrence of `RIGHT` and of `LEFT` to `DATA`, and test
exact membership in `properties_to_ignore`. -/
def keyToIgnore (ctx : Ctx) (currPath : String) : Bool :=
  let currPathWithoutIdx :=
    pyReplace (pyReplace (stripIndices currPath) "RIGHT" "DATA") "LEFT" "DATA"
  ctx.propertiesToIgnore.any (fun q => q == currPathWithoutIdx)

/-- The method `__get_target_prop_value`: the identifying property name is
the configured target path minus the index-stripped cursor path, with the
dots removed; its value is looked up in the expected element
(`KeyError` when absent). -/
def getTargetPropValue (ctx : Ctx) (currPath : String) (object : List (String × PyVal)) :
    Except PyErr (String × PyVal) :=
  let targetKey :=
    pyReplace (pyRemovePre ctx.targetProperty (stripIndices currPath)) "." ""
  match assocLookup targetKey object with
  | some v => .ok (targetKey, v)
  | none => .error .keyError

/-- The static method `__get_idx_of_similar_row`: linear scan (from index
`idx`) for the first element whose `.get(prop)` compares equal to
`prop_val`; `.get` raises `AttributeError` on non-dict elements. -/
def getIdxOfSimilarRow (prop : String) (propVal : PyVal) :
    List PyVal → Nat → Except PyErr (Option Nat)
  | [], _ => .ok none
  | e :: rest, idx =>
    match pyGet e prop with
    | .error er => .error er
    | .ok actVal =>
      if pyEq actVal propVal then .ok (some idx)
      else getIdxOfSimilarRow prop propVal rest (idx + 1)

/-- The method `__check_array_lengths`: one `lackOfArrayItems` or
`exceedingArrayItems` entry at the array-level path when the lengths
differ. -/
def checkArrayLengths (itemPath : String) (expLen actLen : Nat) : List Entry :=
  let p := setupPath itemPath "<array>"
  if actLen < expLen then [.lackOfArrayItems p expLen actLen]
  else if expLen < actLen then [.exceedingArrayItems p expLen actLen]
  else []

/-- The positional loop of `__compare_with_items_order_respect`, in the case
where `exp_data` is a non-list iterable (a dict, iterating its keys, or a
str, iterating its characters): every iterated value is a string, so the
dict/list branches of the loop body cannot fire.  Split from the main loop
only so that its recursion needs no termination measure on the document;
the body is the source loop verbatim under that specialization. -/
def scalarPositionalLoop (itemPath : String) :
    List String → Nat → Nat → PyVal → CompRes
  | [], _, _, _ => ([], none)
  | v :: rest, idx, actLen, actData =>
    let currPath := setupPath itemPath ("<array>[" ++ toString idx ++ "]")
    let step : CompRes :=
      if idx == actLen then ([.missingArrayItem currPath (.str v) none], none)
      else
        match pyGetIdx actData idx with
        | .error er => ([], some er)
        | .ok a =>
          if pyEq (.str v) a then ([], none)
          else ([.unequalValues currPath (.str v) a], none)
    match step with
    | (l, some er) => (l, some er)
    | (l, none) =>
      let r := scalarPositionalLoop itemPath rest (idx + 1) actLen actData
      (l ++ r.1, r.2)

/-- The keyed loop of `__compare_with_nested_obj_prop_respect`, in the same
non-list-iterable specialization as `scalarPositionalLoop` (string values
only; no bound guard in the keyed loop). -/
def scalarKeyedLoop (itemPath : String) :
    List String → Nat → PyVal → CompRes
  | [], _, _ => ([], none)
  | v :: rest, idx, actData =>
    let currPath := setupPath itemPath ("<array[" ++ toString idx ++ "]>")
    let step : CompRes :=
      match pyGetIdx actData idx with
      | .error er => ([], some er)
      | .ok a =>
        if pyEq (.str v) a then ([], none)
        else ([.unequalValues currPath (.str v) a], none)
    match step with
    | (l, some er) => (l, some er)
    | (l, none) =>
      let r := scalarKeyedLoop itemPath rest (idx + 1) actData
      (l ++ r.1, r.2)

mutual

/-- The method `_compare_dicts`: iterate the expected dict's items in order
(`exp_data.items()` raises `AttributeError` on a non-dict). -/
def compareDicts (ctx : Ctx) (itemPath : String) (expData actData : PyVal) : CompRes :=
  match expData with
  | .obj kvs => compareDictsLoop ctx itemPath kvs actData
  | _ => ([], some .attributeError)
termination_by structural expData

/-- The per-key loop of `_compare_dicts`: missing key, nested dict, nested
list, or scalar equality with the ignore-set check. -/
def compareDictsLoop (ctx : Ctx) (itemPath : String)
    (kvs : List (String × PyVal)) (actData : PyVal) : CompRes :=
  match kvs with
  | [] => ([], none)
  | (key, val) :: rest =>
    let currPath := setupPath itemPath key
    let step : CompRes :=
      match pyContains actData key with
      | .error er => ([], some er)
      | .ok mem =>
        if !mem then ([.missingProperty currPath], none)
        else
          match val with
          | .obj _ =>
            (match pyGetStrKey actData key with
             | .error er => ([], some er)
             | .ok a =>
               match a with
               | .obj _ => compareDicts ctx currPath val a
               | _ => ([.incorrectType currPath (.obj []) a], none))
          | .arr _ =>
            (match pyGetStrKey actData key with
             | .error er => ([], some er)
             | .ok a =>
               match a with
               | .arr _ => compareLists ctx currPath val a
               | _ => ([.incorrectType currPath (.arr []) a], none))
          | _ =>
            (match pyGetStrKey actData key with
             | .error er => ([], some er)
             | .ok a =>
               if pyEq val a then ([], none)
               else if keyToIgnore ctx currPath then ([], none)
               else ([.unequalValues currPath val a], none))
    match step with
    | (l, some er) => (l, some er)
    | (l, none) =>
      let r := compareDictsLoop ctx itemPath rest actData
      (l ++ r.1, r.2)
termination_by structural kvs

/-- The method `_compare_lists`: the keyed strategy when the instance has a
`target_key_path` attribute, the positional strategy otherwise.  The bodies
of the two strategy methods are inlined here because the loops below
recurse back into `_compare_lists` on strictly smaller documents, and
structural recursion admits no same-argument call between mutual functions;
`compareItemsOrder` and `compareNestedObjProp` below restate the two
methods separately, and `compareLists_eq_strategies` proves this definition
equal to the dispatch between them. -/
def compareLists (ctx : Ctx) (itemPath : String) (expData actData : PyVal) : CompRes :=
  if ctx.hasTargetKeyPath then
    match pyLen expData with
    | .error er => ([], some er)
    | .ok expLen =>
      match pyLen actData with
      | .error er => ([], some er)
      | .ok actLen =>
        let lenEntries := checkArrayLengths itemPath expLen actLen
        match expData with
        | .arr xs =>
          let r := compareKeyedLoop ctx itemPath xs 0 actData
          (lenEntries ++ r.1, r.2)
        | _ =>
          let r := scalarKeyedLoop itemPath (strElems expData) 0 actData
          (lenEntries ++ r.1, r.2)
  else
    match pyLen expData with
    | .error er => ([], some er)
    | .ok expLen =>
      match pyLen actData with
      | .error er => ([], some er)
      | .ok actLen =>
        let lenEntries := checkArrayLengths itemPath expLen actLen
        match expData with
        | .arr xs =>
          let r := comparePositionalLoop ctx itemPath xs 0 actLen actData
          (lenEntries ++ r.1, r.2)
        | _ =>
          let r := scalarPositionalLoop itemPath (strElems expData) 0 actLen actData
          (lenEntries ++ r.1, r.2)
termination_by structural expData

/-- The positional loop body of `__compare_with_items_order_respect`: a
`missingArrayItem` exactly when the index equals the actual length,
otherwise the same dict/list/scalar dispatch as in `_compare_dicts`,
without any ignore-set check. -/
def comparePositionalLoop (ctx : Ctx) (itemPath : String)
    (vals : List PyVal) (idx actLen : Nat) (actData : PyVal) : CompRes :=
  match vals with
  | [] => ([], none)
  | val :: rest =>
    let currPath := setupPath itemPath ("<array>[" ++ toString idx ++ "]")
    let step : CompRes :=
      if idx == actLen then ([.missingArrayItem currPath val none], none)
      else
        match val with
        | .obj _ =>
          (match pyGetIdx actData idx with
           | .error er => ([], some er)
           | .ok a =>
             match a with
             | .obj _ => compareDicts ctx currPath val a
             | _ => ([.incorrectType currPath (.obj []) a], none))
        | .arr _ =>
          (match pyGetIdx actData idx with
           | .error er => ([], some er)
           | .ok a =>
             match a with
             | .arr _ => compareLists ctx currPath val a
             | _ => ([.incorrectType currPath (.arr []) a], none))
        | _ =>
          (match pyGetIdx actData idx with
           | .error er => ([], some er)
           | .ok a =>
             if pyEq val a then ([], none)
             else ([.unequalValues currPath val a], none))
    match step with
    | (l, some er) => (l, some er)
    | (l, none) =>
      let r := comparePositionalLoop ctx itemPath rest (idx + 1) actLen actData
      (l ++ r.1, r.2)
termination_by structural vals

/-- The keyed loop body of `__compare_with_nested_obj_prop_respect`: for a
dict element, resolve the identifying property, scan the actual side for
the first match and recurse on it (or record a keyed `missingArrayItem`);
for a list or scalar element, fall back to positional access without a
bound guard. -/
def compareKeyedLoop (ctx : Ctx) (itemPath : String)
    (vals : List PyVal) (idx : Nat) (actData : PyVal) : CompRes :=
  match vals with
  | [] => ([], none)
  | val :: rest =>
    let currPath := setupPath itemPath ("<array[" ++ toString idx ++ "]>")
    let step : CompRes :=
      match val with
      | .obj kvs =>
        (match getTargetPropValue ctx currPath kvs with
         | .error er => ([], some er)
         | .ok tp =>
           match getIdxOfSimilarRow tp.1 tp.2 (pyElems actData) 0 with
           | .error er => ([], some er)
           | .ok none => ([.missingArrayItem currPath tp.2 (some tp.1)], none)
           | .ok (some j) =>
             match pyGetIdx actData j with
             | .error er => ([], some er)
             | .ok a => compareDicts ctx currPath val a)
      | .arr _ =>
        (match pyGetIdx actData idx with
         | .error er => ([], some er)
         | .ok a =>
           match a with
           | .arr _ => compareLists ctx currPath val a
           | _ => ([.incorrectType currPath (.arr []) a], none))
      | _ =>
        (match pyGetIdx actData idx with
         | .error er => ([], some er)
         | .ok a =>
           if pyEq val a then ([], none)
           else ([.unequalValues currPath val a], none))
    match step with
    | (l, some er) => (l, some er)
    | (l, none) =>
      let r := compareKeyedLoop ctx itemPath rest (idx + 1) actData
      (l ++ r.1, r.2)
termination_by structural vals

end

/-- The method `__compare_with_items_order_respect` as a standalone
function: both lengths first (each may raise `TypeError`), then the
length-mismatch entry, then the positional loop over the expected side. -/
def compareItemsOrder (ctx : Ctx) (itemPath : String) (expData actData : PyVal) : CompRes :=
  match pyLen expData with
  | .error er => ([], some er)
  | .ok expLen =>
    match pyLen actData with
    | .error er => ([], some er)
    | .ok actLen =>
      let lenEntries := checkArrayLengths itemPath expLen actLen
      match expData with
      | .arr xs =>
        let r := comparePositionalLoop ctx itemPath xs 0 actLen actData
        (lenEntries ++ r.1, r.2)
      | _ =>
        let r := scalarPositionalLoop itemPath (strElems expData) 0 actLen actData
        (lenEntries ++ r.1, r.2)

/-- The method `__compare_with_nested_obj_prop_respect` as a standalone
function: lengths and the length-mismatch entry, then the keyed loop over
the expected side. -/
def compareNestedObjProp (ctx : Ctx) (itemPath : String) (expData actData : PyVal) : CompRes :=
  match pyLen expData with
  | .error er => ([], some er)
  | .ok expLen =>
    match pyLen actData with
    | .error er => ([], some er)
    | .ok actLen =>
      let lenEntries := checkArrayLengths itemPath expLen actLen
      match expData with
      | .arr xs =>
        let r := compareKeyedLoop ctx itemPath xs 0 actData
        (lenEntries ++ r.1, r.2)
      | _ =>
        let r := scalarKeyedLoop itemPath (strElems expData) 0 actData
        (lenEntries ++ r.1, r.2)

/-- `_compare_lists` is exactly the dispatch between the two strategy
methods. -/
theorem compareLists_eq_strategies (ctx : Ctx) (itemPath : String) (expData actData : PyVal) :
    compareLists ctx itemPath expData actData
      = if ctx.hasTargetKeyPath then compareNestedObjProp ctx itemPath expData actData
        else compareItemsOrder ctx itemPath expData actData := by
  cases h : ctx.hasTargetKeyPath <;>
    simp [compareLists, compareNestedObjProp, compareItemsOrder, h]

/-! ### Directional orchestrator -/

/-- State of a `JSONComparator` instance: the two loaded documents, the
configuration, and the diff log.  `hasTargetKeyPath` records whether the
instance carries a `target_key_path` attribute (consulted by
`_compare_lists` via `hasattr`). -/
structure CState where
  left : PyVal
  right : PyVal
  targetProperty : String
  propertiesToIgnore : List String
  hasTargetKeyPath : Bool
  log : List Entry
deriving Repr

/-- The constructor `__init__` (file loading aside): `target_property`
defaults to the empty string, `properties_to_ignore` to the empty list, the
log starts empty, and no `target_key_path` attribute is ever created. -/
def mkComparator (left right : PyVal) (targetProperty : Option String)
    (propertiesToIgnore : Option (List String)) : CState :=
  { left := left
    right := right
    targetProperty := targetProperty.getD ""
    propertiesToIgnore := propertiesToIgnore.getD []
    hasTargetKeyPath := false
    log := [] }

/-- Comparison configuration visible to the engine, as read off the
instance state. -/
def CState.ctx (st : CState) : Ctx :=
  { targetProperty := st.targetProperty
    propertiesToIgnore := st.propertiesToIgnore
    hasTargetKeyPath := st.hasTargetKeyPath }

/-- The method `__compare`: pick the direction's (expected, actual) pair and
root label, then dispatch — on the shape of `self.left_data` — to dict or
list comparison; a bare `raise` (a `RuntimeError`) otherwise. -/
def compareRun (st : CState) (withActual : Bool) : CompRes :=
  let data1 := if withActual then st.left else st.right
  let data2 := if withActual then st.right else st.left
  let rootLog := if withActual then "RIGHT" else "LEFT"
  match st.left with
  | .obj _ => compareDicts st.ctx rootLog data1 data2
  | .arr _ => compareLists st.ctx rootLog data1 data2
  | _ => ([], some .runtimeError)

/-- The method `__edit_target_prop_path_root`. -/
def editTargetPropPathRoot (st : CState) (fromLabel toLabel : String) : CState :=
  { st with targetProperty := pyReplace st.targetProperty fromLabel toLabel }

/-- The method `compare_with_right`: clear the log, rewrite the target-path
root `DATA`→`RIGHT`, run the engine left-as-expected, and rewrite back —
the rewrite-back is skipped when the run raises (the exception
propagates). -/
def compareWithRight (st : CState) : CState × Option PyErr :=
  let st1 := { st with log := [] }
  let st2 := editTargetPropPathRoot st1 "DATA" "RIGHT"
  let r := compareRun st2 true
  let st3 := { st2 with log := st2.log ++ r.1 }
  match r.2 with
  | some er => (st3, some er)
  | none => (editTargetPropPathRoot st3 "RIGHT" "DATA", none)

/-- The method `compare_with_left`: symmetric to `compare_with_right`, with
root label `LEFT` and the expected/actual roles swapped. -/
def compareWithLeft (st : CState) : CState × Option PyErr :=
  let st1 := { st with log := [] }
  let st2 := editTargetPropPathRoot st1 "DATA" "LEFT"
  let r := compareRun st2 false
  let st3 := { st2 with log := st2.log ++ r.1 }
  match r.2 with
  | some er => (st3, some er)
  | none => (editTargetPropPathRoot st3 "LEFT" "DATA", none)

/-- The method `full_compare`: clear the log once, run left-as-expected,
rewrite the root `RIGHT`→`LEFT`, run right-as-expected into the same log,
rewrite `LEFT`→`DATA`; an exception aborts the remaining steps. -/
def fullCompare (st : CState) : CState × Option PyErr :=
  let st1 := { st with log := [] }
  let st2 := editTargetPropPathRoot st1 "DATA" "RIGHT"
  let r := compareRun st2 true
  let st3 := { st2 with log := st2.log ++ r.1 }
  match r.2 with
  | some er => (st3, some er)
  | none =>
    let st4 := editTargetPropPathRoot st3 "RIGHT" "LEFT"
    let r2 := compareRun st4 false
    let st5 := { st4 with log := st4.log ++ r2.1 }
    match r2.2 with
    | some er => (st5, some er)
    | none => (editTargetPropPathRoot st5 "LEFT" "DATA", none)

/-- Shape predicate: a value that is neither a dict nor a list (the values
handled by the scalar-equality leaf branch). -/
def isScalarVal : PyVal → Bool
  | .obj _ => false
  | .arr _ => false
  | _ => true

/-- Shape predicate: the value is a dict. -/
def isObjVal : PyVal → Bool
  | .obj _ => true
  | _ => false

/-- Shape predicate: the value is a list. -/
def isArrVal : PyVal → Bool
  | .arr _ => true
  | _ => false

/-- The value `e.get(prop)` evaluates to on a dict: the stored value, or
`None` when the key is absent. -/
def objGetD (e : PyVal) (prop : String) : PyVal :=
  match e with
  | .obj kvs => (assocLookup prop kvs).getD .null
  | _ => .null

/-! ## Lemmas about the string primitives -/

theorem isPrefixL_append_self (p z : List Char) : isPrefixL p (p ++ z) = true := by
  induction p with
  | nil => simp [isPrefixL]
  | cons a as ih => simp [isPrefixL, ih]

theorem isPrefixL_length_le {p s : List Char} (h : isPrefixL p s = true) :
    p.length ≤ s.length := by
  induction p generalizing s with
  | nil => simp
  | cons a as ih =>
    cases s with
    | nil => simp [isPrefixL] at h
    | cons b bs =>
      simp only [isPrefixL, Bool.and_eq_true] at h
      simpa using ih h.2

theorem eq_append_drop_of_isPrefixL {p s : List Char} (h : isPrefixL p s = true) :
    s = p ++ s.drop p.length := by
  induction p generalizing s with
  | nil => simp
  | cons a as ih =>
    cases s with
    | nil => simp [isPrefixL] at h
    | cons b bs =>
      simp only [isPrefixL, Bool.and_eq_true, beq_iff_eq] at h
      obtain ⟨rfl, h2⟩ := h
      simpa using ih h2

theorem isPrefixL_append_short {p x : List Char} (z : List Char)
    (hlen : p.length ≤ x.length) : isPrefixL p (x ++ z) = isPrefixL p x := by
  induction p generalizing x with
  | nil => simp [isPrefixL]
  | cons a as ih =>
    cases x with
    | nil => simp at hlen
    | cons b bs =>
      simp only [List.cons_append, isPrefixL]
      show (a == b && isPrefixL as (bs ++ z)) = (a == b && isPrefixL as bs)
      rw [@ih bs (by simpa using hlen)]

theorem containsSub_cons (pat : List Char) (c : Char) (t : List Char) :
    containsSub pat (c :: t) = (isPrefixL pat (c :: t) || containsSub pat t) := by
  simp [containsSub]

theorem containsSub_of_isPrefixL {pat s : List Char} (h : isPrefixL pat s = true) :
    containsSub pat s = true := by
  cases s with
  | nil => simpa [containsSub] using h
  | cons c t => simp [containsSub_cons, h]

theorem containsSub_tail {pat : List Char} {c : Char} {t : List Char}
    (h : containsSub pat (c :: t) = false) : containsSub pat t = false := by
  rw [containsSub_cons] at h
  exact (Bool.or_eq_false_iff.mp h).2

theorem containsSub_drop {pat s : List Char} (k : Nat)
    (h : containsSub pat s = false) : containsSub pat (s.drop k) = false := by
  induction k generalizing s with
  | zero => simpa using h
  | succ n ih =>
    cases s with
    | nil => simpa using h
    | cons c t =>
      rw [List.drop_succ_cons]
      exact ih (containsSub_tail h)

theorem pyReplaceLGo_skip (pat rep : List Char) :
    ∀ (k : Nat) (s : List Char),
      pyReplaceLGo pat rep s k = pyReplaceLGo pat rep (s.drop k) 0 := by
  intro k
  induction k with
  | zero => intro s; rw [List.drop_zero]
  | succ k ih =>
    intro s
    cases s with
    | nil => rfl
    | cons c t =>
      rw [List.drop_succ_cons]
      exact ih t

theorem pyReplaceL_nil (pat rep : List Char) : pyReplaceL pat rep [] = [] := rfl

theorem pyReplaceL_prefix_step {pat s : List Char} (rep : List Char)
    (hne : pat ≠ []) (hp : isPrefixL pat s = true) :
    pyReplaceL pat rep s = rep ++ pyReplaceL pat rep (s.drop pat.length) := by
  cases s with
  | nil =>
    cases pat with
    | nil => exact absurd rfl hne
    | cons x xs => simp [isPrefixL] at hp
  | cons c t =>
    have h0 : pyReplaceL pat rep (c :: t)
        = if pat ≠ [] ∧ isPrefixL pat (c :: t) = true then
            rep ++ pyReplaceLGo pat rep t (pat.length - 1)
          else c :: pyReplaceLGo pat rep t 0 := rfl
    rw [h0, if_pos ⟨hne, hp⟩, pyReplaceLGo_skip]
    obtain ⟨x, xs, rfl⟩ : ∃ x xs, pat = x :: xs := by
      cases pat with
      | nil => exact absurd rfl hne
      | cons x xs => exact ⟨x, xs, rfl⟩
    simp [pyReplaceL]

theorem pyReplaceL_no_prefix_step {pat : List Char} {c : Char} {t : List Char}
    (rep : List Char) (hnp : ¬(pat ≠ [] ∧ isPrefixL pat (c :: t) = true)) :
    pyReplaceL pat rep (c :: t) = c :: pyReplaceL pat rep t := by
  have h0 : pyReplaceL pat rep (c :: t)
      = if pat ≠ [] ∧ isPrefixL pat (c :: t) = true then
          rep ++ pyReplaceLGo pat rep t (pat.length - 1)
        else c :: pyReplaceLGo pat rep t 0 := rfl
  rw [h0, if_neg hnp]
  rfl

/-- Pattern `b` is unbordered: no proper nonempty suffix of `b` is a prefix
of `b`. -/
def Unbordered (b : List Char) : Prop :=
  ∀ k, 0 < k → b.drop k ≠ [] → isPrefixL (b.drop k) b = false

theorem drop_isPrefixL_replace {a b : List Char} (hb : Unbordered b) :
    ∀ (t : List Char) (k : Nat), 0 < k → b.drop k ≠ [] →
      isPrefixL (b.drop k) (pyReplaceL a b t) = true → isPrefixL (b.drop k) t = true := by
  intro t
  induction t with
  | nil => intro k _ _ h; simpa [pyReplaceL, pyReplaceLGo] using h
  | cons c t ih =>
    intro k hk hne h
    by_cases hpre : a ≠ [] ∧ isPrefixL a (c :: t) = true
    · rw [pyReplaceL_prefix_step b hpre.1 hpre.2] at h
      have hlen : (b.drop k).length ≤ b.length := by
        simp only [List.length_drop]
        omega
      rw [isPrefixL_append_short _ hlen, hb k hk hne] at h
      simp at h
    · rw [pyReplaceL_no_prefix_step b hpre] at h
      obtain ⟨d, ds, hd⟩ : ∃ d ds, b.drop k = d :: ds := by
        cases hx : b.drop k with
        | nil => exact absurd hx hne
        | cons d ds => exact ⟨d, ds, rfl⟩
      have hds : b.drop (k + 1) = ds := by
        have h1 := List.drop_drop 1 k b
        rw [hd] at h1
        simpa using h1.symm
      rw [hd] at h ⊢
      simp only [isPrefixL, Bool.and_eq_true, beq_iff_eq] at h ⊢
      obtain ⟨rfl, h2⟩ := h
      refine ⟨rfl, ?_⟩
      by_cases hds2 : ds = []
      · subst hds2; simp [isPrefixL]
      · have hrec : isPrefixL (b.drop (k + 1)) t = true := by
          apply ih (k + 1) (by omega) (by rw [hds]; exact hds2)
          rw [hds]
          exact h2
        rw [hds] at hrec
        exact hrec


theorem pyReplaceL_append_pat (pat rep z : List Char) (hne : pat ≠ []) :
    pyReplaceL pat rep (pat ++ z) = rep ++ pyReplaceL pat rep z := by
  rw [pyReplaceL_prefix_step rep hne (isPrefixL_append_self pat z)]
  congr 1
  rw [List.drop_left]

theorem pyReplaceL_self (a s : List Char) : pyReplaceL a a s = s := by
  have main : ∀ n (s : List Char), s.length ≤ n → pyReplaceL a a s = s := by
    intro n
    induction n with
    | zero =>
      intro s hs
      have hs0 : s = [] := List.eq_nil_of_length_eq_zero (by omega)
      subst hs0
      exact pyReplaceL_nil a a
    | succ n ih =>
      intro s hs
      cases s with
      | nil => exact pyReplaceL_nil a a
      | cons c t =>
        by_cases hpre : a ≠ [] ∧ isPrefixL a (c :: t) = true
        · have halen : 1 ≤ a.length := by
            cases a with
            | nil => exact absurd rfl hpre.1
            | cons x xs => simp
          rw [pyReplaceL_prefix_step a hpre.1 hpre.2]
          rw [ih ((c :: t).drop a.length) (by
            simp only [List.length_drop, List.length_cons]
            simp only [List.length_cons] at hs
            omega)]
          exact (eq_append_drop_of_isPrefixL hpre.2).symm
        · rw [pyReplaceL_no_prefix_step a hpre]
          rw [ih t (by simp only [List.length_cons] at hs; omega)]
  exact main s.length s le_rfl

theorem isPrefixL_cons_elim {p : List Char} {c : Char} {y : List Char}
    (hne : p ≠ []) (h : isPrefixL p (c :: y) = true) :
    p = c :: p.drop 1 ∧ isPrefixL (p.drop 1) y = true := by
  cases p with
  | nil => exact absurd rfl hne
  | cons d q =>
    simp only [isPrefixL, Bool.and_eq_true, beq_iff_eq] at h
    obtain ⟨rfl, h2⟩ := h
    exact ⟨rfl, h2⟩

theorem pyReplaceL_roundtrip {a b : List Char} (a2 : List Char)
    (ha : a ≠ []) (hbne : b ≠ []) (hb : Unbordered b) :
    ∀ s, containsSub b s = false →
      pyReplaceL b a2 (pyReplaceL a b s) = pyReplaceL a a2 s := by
  have main : ∀ n (s : List Char), s.length ≤ n → containsSub b s = false →
      pyReplaceL b a2 (pyReplaceL a b s) = pyReplaceL a a2 s := by
    intro n
    induction n with
    | zero =>
      intro s hs _
      have hs0 : s = [] := List.eq_nil_of_length_eq_zero (by omega)
      subst hs0
      simp [pyReplaceL_nil]
    | succ n ih =>
      intro s hs hcon
      cases s with
      | nil => simp [pyReplaceL_nil]
      | cons c t =>
        by_cases hpre : a ≠ [] ∧ isPrefixL a (c :: t) = true
        · have halen : 1 ≤ a.length := by
            cases a with
            | nil => exact absurd rfl ha
            | cons x xs => simp
          rw [pyReplaceL_prefix_step b ha hpre.2]
          rw [pyReplaceL_append_pat b a2 _ hbne]
          rw [ih ((c :: t).drop a.length) (by
              simp only [List.length_drop, List.length_cons]
              simp only [List.length_cons] at hs
              omega)
            (containsSub_drop a.length hcon)]
          rw [pyReplaceL_prefix_step a2 ha hpre.2]
        · rw [pyReplaceL_no_prefix_step b hpre]
          have hnpb : ¬(b ≠ [] ∧ isPrefixL b (c :: pyReplaceL a b t) = true) := by
            rintro ⟨-, hpb⟩
            obtain ⟨hbeq, hds⟩ := isPrefixL_cons_elim hbne hpb
            have hbc : isPrefixL b (c :: t) = true := by
              by_cases hds0 : b.drop 1 = []
              · rw [hbeq, hds0]
                simp [isPrefixL]
              · have hstep := drop_isPrefixL_replace hb t 1 (by omega) hds0 hds
                rw [hbeq]
                rw [List.drop_one] at hstep
                simp [isPrefixL, hstep]
            exact absurd (containsSub_of_isPrefixL hbc) (by rw [hcon]; simp)
          rw [pyReplaceL_no_prefix_step a2 hnpb]
          rw [ih t (by simp only [List.length_cons] at hs; omega) (containsSub_tail hcon)]
          rw [pyReplaceL_no_prefix_step a2 hpre]
  intro s
  exact main s.length s le_rfl

theorem unbordered_RIGHT : Unbordered "RIGHT".data := by
  intro k hk hne
  have hk5 : k < 5 := by
    by_contra h5
    exact hne (List.drop_eq_nil_of_le (by simp; omega))
  interval_cases k <;> decide

theorem unbordered_LEFT : Unbordered "LEFT".data := by
  intro k hk hne
  have hk4 : k < 4 := by
    by_contra h4
    exact hne (List.drop_eq_nil_of_le (by simp; omega))
  interval_cases k <;> decide

theorem pyReplace_roundtrip (t a b a2 : String) (ha : a.data ≠ [])
    (hbne : b.data ≠ []) (hb : Unbordered b.data)
    (hcon : containsSubStr b t = false) :
    pyReplace (pyReplace t a b) b a2 = pyReplace t a a2 :=
  congrArg String.mk (pyReplaceL_roundtrip a2.data ha hbne hb t.data hcon)

theorem pyReplace_same (t a : String) : pyReplace t a a = t := by
  cases t with
  | mk data => exact congrArg String.mk (pyReplaceL_self a.data data)

theorem targetRestore_right {t : String} (h : containsSubStr "RIGHT" t = false) :
    pyReplace (pyReplace t "DATA" "RIGHT") "RIGHT" "DATA" = t := by
  rw [pyReplace_roundtrip t "DATA" "RIGHT" "DATA" (by decide) (by decide) unbordered_RIGHT h]
  exact pyReplace_same t "DATA"

theorem targetTurn_left {t : String} (h : containsSubStr "RIGHT" t = false) :
    pyReplace (pyReplace t "DATA" "RIGHT") "RIGHT" "LEFT" = pyReplace t "DATA" "LEFT" :=
  pyReplace_roundtrip t "DATA" "RIGHT" "LEFT" (by decide) (by decide) unbordered_RIGHT h

theorem targetRestore_left {t : String} (h : containsSubStr "LEFT" t = false) :
    pyReplace (pyReplace t "DATA" "LEFT") "LEFT" "DATA" = t := by
  rw [pyReplace_roundtrip t "DATA" "LEFT" "DATA" (by decide) (by decide) unbordered_LEFT h]
  exact pyReplace_same t "DATA"

theorem targetRestore_full {t : String} (hR : containsSubStr "RIGHT" t = false)
    (hL : containsSubStr "LEFT" t = false) :
    pyReplace (pyReplace (pyReplace t "DATA" "RIGHT") "RIGHT" "LEFT") "LEFT" "DATA" = t := by
  rw [targetTurn_left hR]
  exact targetRestore_left hL

/-! ## Unfolding characterizations of the entry points -/

theorem natToString0 : toString (0 : Nat) = "0" := rfl

theorem natToString1 : toString (1 : Nat) = "1" := rfl

theorem natToString2 : toString (2 : Nat) = "2" := rfl

theorem compareWithRight_spec (st : CState) :
    compareWithRight st =
      (let stR : CState :=
        { st with
            log := []
            targetProperty := pyReplace st.targetProperty "DATA" "RIGHT" }
       let r := compareRun stR true
       match r.2 with
       | some er =>
         ({ st with
              log := r.1
              targetProperty := pyReplace st.targetProperty "DATA" "RIGHT" },
           some er)
       | none =>
         ({ st with
              log := r.1
              targetProperty :=
                pyReplace (pyReplace st.targetProperty "DATA" "RIGHT") "RIGHT" "DATA" },
           none)) := rfl

theorem compareWithLeft_spec (st : CState) :
    compareWithLeft st =
      (let stL : CState :=
        { st with
            log := []
            targetProperty := pyReplace st.targetProperty "DATA" "LEFT" }
       let r := compareRun stL false
       match r.2 with
       | some er =>
         ({ st with
              log := r.1
              targetProperty := pyReplace st.targetProperty "DATA" "LEFT" },
           some er)
       | none =>
         ({ st with
              log := r.1
              targetProperty :=
                pyReplace (pyReplace st.targetProperty "DATA" "LEFT") "LEFT" "DATA" },
           none)) := rfl

theorem fullCompare_spec (st : CState) :
    fullCompare st =
      (let stR : CState :=
        { st with
            log := []
            targetProperty := pyReplace st.targetProperty "DATA" "RIGHT" }
       let r := compareRun stR true
       match r.2 with
       | some er =>
         ({ st with
              log := r.1
              targetProperty := pyReplace st.targetProperty "DATA" "RIGHT" },
           some er)
       | none =>
         let st4 : CState :=
           { st with
               log := r.1
               targetProperty :=
                 pyReplace (pyReplace st.targetProperty "DATA" "RIGHT") "RIGHT" "LEFT" }
         let r2 := compareRun st4 false
         match r2.2 with
         | some er2 => ({ st4 with log := r.1 ++ r2.1 }, some er2)
         | none =>
           ({ st4 with
                log := r.1 ++ r2.1
                targetProperty :=
                  pyReplace
                    (pyReplace (pyReplace st.targetProperty "DATA" "RIGHT") "RIGHT" "LEFT")
                    "LEFT" "DATA" },
             none)) := rfl

/-! ## Target-property irrelevance when the keyed gate is off -/

theorem ctxIrrelAux : ∀ n : Nat,
    (∀ (t1 t2 : String) (pr : List String) (p : String) (e a : PyVal), sizeOf e ≤ n →
      compareDicts ⟨t1, pr, false⟩ p e a = compareDicts ⟨t2, pr, false⟩ p e a) ∧
    (∀ (t1 t2 : String) (pr : List String) (p : String)
      (kvs : List (String × PyVal)) (a : PyVal), sizeOf kvs ≤ n →
      compareDictsLoop ⟨t1, pr, false⟩ p kvs a = compareDictsLoop ⟨t2, pr, false⟩ p kvs a) ∧
    (∀ (t1 t2 : String) (pr : List String) (p : String) (e a : PyVal), sizeOf e ≤ n →
      compareLists ⟨t1, pr, false⟩ p e a = compareLists ⟨t2, pr, false⟩ p e a) ∧
    (∀ (t1 t2 : String) (pr : List String) (p : String) (vals : List PyVal)
      (i al : Nat) (a : PyVal), sizeOf vals ≤ n →
      comparePositionalLoop ⟨t1, pr, false⟩ p vals i al a
        = comparePositionalLoop ⟨t2, pr, false⟩ p vals i al a) := by
  intro n
  induction n using Nat.strong_induction_on with
  | _ n ih =>
    refine ⟨?_, ?_, ?_, ?_⟩
    · intro t1 t2 pr p e a he
      cases e with
      | obj kvs =>
        rw [compareDicts, compareDicts]
        have hs2 : sizeOf kvs < n := by
          have h2 : sizeOf (PyVal.obj kvs) = 1 + sizeOf kvs := by simp
          omega
        exact (ih (sizeOf kvs) hs2).2.1 t1 t2 pr p kvs a le_rfl
      | arr xs => simp [compareDicts]
      | null => simp [compareDicts]
      | bool b => simp [compareDicts]
      | num m => simp [compareDicts]
      | str s2 => simp [compareDicts]
    · intro t1 t2 pr p kvs a hk
      match kvs with
      | [] => simp [compareDictsLoop]
      | (key, val) :: rest =>
        have hsr : sizeOf rest < n := by
          have h1 : sizeOf ((key, val) :: rest)
              = 1 + (1 + sizeOf key + sizeOf val) + sizeOf rest := by simp
          omega
        have hsv : sizeOf val < n := by
          have h1 : sizeOf ((key, val) :: rest)
              = 1 + (1 + sizeOf key + sizeOf val) + sizeOf rest := by simp
          omega
        have hrest := (ih (sizeOf rest) hsr).2.1 t1 t2 pr p rest a le_rfl
        have hki : keyToIgnore ⟨t1, pr, false⟩ (setupPath p key)
            = keyToIgnore ⟨t2, pr, false⟩ (setupPath p key) := rfl
        cases val with
        | obj kvs2 =>
          have hrec : ∀ a2 : PyVal,
              compareDicts ⟨t1, pr, false⟩ (setupPath p key) (.obj kvs2) a2
                = compareDicts ⟨t2, pr, false⟩ (setupPath p key) (.obj kvs2) a2 :=
            fun a2 => (ih (sizeOf (PyVal.obj kvs2)) hsv).1 t1 t2 pr _ _ a2 le_rfl
          simp only [compareDictsLoop, hrec, hrest, hki]
        | arr xs2 =>
          have hrec : ∀ a2 : PyVal,
              compareLists ⟨t1, pr, false⟩ (setupPath p key) (.arr xs2) a2
                = compareLists ⟨t2, pr, false⟩ (setupPath p key) (.arr xs2) a2 :=
            fun a2 => (ih (sizeOf (PyVal.arr xs2)) hsv).2.2.1 t1 t2 pr _ _ a2 le_rfl
          simp only [compareDictsLoop, hrec, hrest, hki]
        | null => simp only [compareDictsLoop, hrest, hki]
        | bool b => simp only [compareDictsLoop, hrest, hki]
        | num m => simp only [compareDictsLoop, hrest, hki]
        | str s2 => simp only [compareDictsLoop, hrest, hki]
    · intro t1 t2 pr p e a he
      cases e with
      | arr xs =>
        have hs2 : sizeOf xs < n := by
          have h2 : sizeOf (PyVal.arr xs) = 1 + sizeOf xs := by simp
          omega
        have hloop : ∀ (i al : Nat) (a2 : PyVal),
            comparePositionalLoop ⟨t1, pr, false⟩ p xs i al a2
              = comparePositionalLoop ⟨t2, pr, false⟩ p xs i al a2 :=
          fun i al a2 => (ih (sizeOf xs) hs2).2.2.2 t1 t2 pr p xs i al a2 le_rfl
        simp [compareLists, compareItemsOrder, hloop]
      | obj kvs => simp [compareLists, compareItemsOrder]
      | str s2 => simp [compareLists, compareItemsOrder]
      | null => simp [compareLists, compareItemsOrder]
      | bool b => simp [compareLists, compareItemsOrder]
      | num m => simp [compareLists, compareItemsOrder]
    · intro t1 t2 pr p vals i al a hv
      match vals with
      | [] => simp [comparePositionalLoop]
      | val :: rest =>
        have hsr : sizeOf rest < n := by
          have h1 : sizeOf (val :: rest) = 1 + sizeOf val + sizeOf rest := by simp
          have h2 : 0 < sizeOf val := by cases val <;> simp_arith
          omega
        have hsv : sizeOf val < n := by
          have h1 : sizeOf (val :: rest) = 1 + sizeOf val + sizeOf rest := by simp
          omega
        have hrest := (ih (sizeOf rest) hsr).2.2.2 t1 t2 pr p rest (i + 1) al a le_rfl
        cases val with
        | obj kvs2 =>
          have hrec : ∀ a2 : PyVal,
              compareDicts ⟨t1, pr, false⟩ (setupPath p ("<array>[" ++ toString i ++ "]"))
                  (.obj kvs2) a2
                = compareDicts ⟨t2, pr, false⟩
                    (setupPath p ("<array>[" ++ toString i ++ "]")) (.obj kvs2) a2 :=
            fun a2 => (ih (sizeOf (PyVal.obj kvs2)) hsv).1 t1 t2 pr _ _ a2 le_rfl
          simp only [comparePositionalLoop, hrec, hrest]
        | arr xs2 =>
          have hrec : ∀ a2 : PyVal,
              compareLists ⟨t1, pr, false⟩ (setupPath p ("<array>[" ++ toString i ++ "]"))
                  (.arr xs2) a2
                = compareLists ⟨t2, pr, false⟩
                    (setupPath p ("<array>[" ++ toString i ++ "]")) (.arr xs2) a2 :=
            fun a2 => (ih (sizeOf (PyVal.arr xs2)) hsv).2.2.1 t1 t2 pr _ _ a2 le_rfl
          simp only [comparePositionalLoop, hrec, hrest]
        | null => simp only [comparePositionalLoop, hrest]
        | bool b => simp only [comparePositionalLoop, hrest]
        | num m => simp only [comparePositionalLoop, hrest]
        | str s2 => simp only [comparePositionalLoop, hrest]

theorem compareRun_target_irrel (dl dr : PyVal) (t1 t2 : String) (pr : List String)
    (lg1 lg2 : List Entry) (b : Bool) :
    compareRun ⟨dl, dr, t1, pr, false, lg1⟩ b = compareRun ⟨dl, dr, t2, pr, false, lg2⟩ b := by
  rw [compareRun, compareRun]
  cases dl with
  | obj kvs =>
    exact (ctxIrrelAux (sizeOf (if b then PyVal.obj kvs else dr))).1 t1 t2 pr _ _ _ le_rfl
  | arr xs =>
    exact (ctxIrrelAux (sizeOf (if b then PyVal.arr xs else dr))).2.2.1 t1 t2 pr _ _ _ le_rfl
  | null => rfl
  | bool bb => rfl
  | num m => rfl
  | str s2 => rfl

/-! ## Claim C7 -/

/-- Claim C7, counterexample: for the target-property path `"DATA.RIGHT"`
(which contains the label `RIGHT`), `compare_with_right` on two empty
objects returns normally but leaves `target_property` equal to
`"DATA.DATA"`, not to its original value: the `DATA`→`RIGHT` rewrite
followed by `RIGHT`→`DATA` also rewrites the pre-existing `RIGHT`
occurrence.  This refutes the claim that every comparison operation is
net-zero on every configured target-property path. -/
theorem c7_counterexample :
    (compareWithRight (mkComparator (.obj []) (.obj []) (some "DATA.RIGHT") none)).2 = none ∧
    (compareWithRight (mkComparator (.obj []) (.obj []) (some "DATA.RIGHT") none)).1.targetProperty
      = "DATA.DATA" ∧
    ("DATA.DATA" : String) ≠ "DATA.RIGHT" := by
  exact ⟨rfl, rfl, by decide⟩

/-- Claim C7 as amended: for every comparator state whose configured
target-property path contains neither `"RIGHT"` nor `"LEFT"` as a
substring, each public comparison operation that returns normally leaves
`target_property` equal to its original value (the root-label rewriting is
net-zero); on a path containing `"RIGHT"` or `"LEFT"` the restoring
substitution can hit pre-existing occurrences (see the counterexample), and
when the operation raises, the rewrite-back is skipped entirely. -/
theorem c7_target_path_net_zero (st : CState)
    (hR : containsSubStr "RIGHT" st.targetProperty = false)
    (hL : containsSubStr "LEFT" st.targetProperty = false) :
    ((compareWithRight st).2 = none →
      (compareWithRight st).1.targetProperty = st.targetProperty) ∧
    ((compareWithLeft st).2 = none →
      (compareWithLeft st).1.targetProperty = st.targetProperty) ∧
    ((fullCompare st).2 = none →
      (fullCompare st).1.targetProperty = st.targetProperty) := by
  refine ⟨?_, ?_, ?_⟩ <;> intro h
  · unfold compareWithRight at h ⊢
    dsimp only at h ⊢
    split at h
    · simp at h
    · dsimp only [editTargetPropPathRoot]
      exact targetRestore_right hR
  · unfold compareWithLeft at h ⊢
    dsimp only at h ⊢
    split at h
    · simp at h
    · dsimp only [editTargetPropPathRoot]
      exact targetRestore_left hL
  · unfold fullCompare at h ⊢
    dsimp only at h ⊢
    split at h
    · simp at h
    · split at h
      · simp at h
      · dsimp only [editTargetPropPathRoot]
        exact targetRestore_full hR hL

/-- Witness for `c7_target_path_net_zero` at the documented example path
`"DATA.cats.<array>.id"` on two empty objects. -/
theorem c7_target_path_net_zero_witness :
    containsSubStr "RIGHT" "DATA.cats.<array>.id" = false ∧
    containsSubStr "LEFT" "DATA.cats.<array>.id" = false ∧
    (compareWithRight
        (mkComparator (.obj []) (.obj []) (some "DATA.cats.<array>.id") none)).1.targetProperty
      = "DATA.cats.<array>.id" := by
  refine ⟨by decide, by decide, ?_⟩
  exact
    (c7_target_path_net_zero
        (mkComparator (.obj []) (.obj []) (some "DATA.cats.<array>.id") none)
        (by decide) (by decide)).1
      (by
        simp [compareWithRight, mkComparator, editTargetPropPathRoot, compareRun, CState.ctx,
          compareDicts, compareDictsLoop, pyReplace, pyReplaceL, isPrefixL])

/-! ## Claim C6 -/

/-- Claim C6: every public comparison entry point clears the diff log as its
first step — its outcome is independent of whatever the log held before the
call — and, whenever both single-direction comparisons return normally,
`full_compare` returns normally with a log that is exactly the
left-as-expected pass entries followed by the right-as-expected pass
entries.  The hypothesis that the keyed gate is off holds for every state
the class can construct, since `__init__` never sets `target_key_path`. -/
theorem c6_clear_and_full_concat (st : CState)
    (hg : st.hasTargetKeyPath = false) :
    (∀ L : List Entry,
      compareWithRight { st with log := L } = compareWithRight st ∧
      compareWithLeft { st with log := L } = compareWithLeft st ∧
      fullCompare { st with log := L } = fullCompare st) ∧
    ((compareWithRight st).2 = none → (compareWithLeft st).2 = none →
      (fullCompare st).2 = none ∧
      (fullCompare st).1.log
        = (compareWithRight st).1.log ++ (compareWithLeft st).1.log) := by
  refine ⟨fun L => ⟨rfl, rfl, rfl⟩, ?_⟩
  cases st with
  | mk dl dr tp pr g lg =>
    subst hg
    intro h1 h2
    rw [compareWithRight_spec] at h1 ⊢
    rw [compareWithLeft_spec] at h2 ⊢
    rw [fullCompare_spec]
    dsimp only at h1 h2 ⊢
    rcases hr1 : compareRun ⟨dl, dr, pyReplace tp "DATA" "RIGHT", pr, false, []⟩ true
      with ⟨lg1, e1⟩
    rcases hr2 : compareRun ⟨dl, dr, pyReplace tp "DATA" "LEFT", pr, false, []⟩ false
      with ⟨lg2, e2⟩
    rw [hr1] at h1
    rw [hr2] at h2
    cases e1 with
    | some er =>
      dsimp only at h1
      exact Option.noConfusion h1
    | none =>
      cases e2 with
      | some er =>
        dsimp only at h2
        exact Option.noConfusion h2
      | none =>
        dsimp only at h1 h2 ⊢
        have hpass2 :
            compareRun
                ⟨dl, dr, pyReplace (pyReplace tp "DATA" "RIGHT") "RIGHT" "LEFT", pr, false, lg1⟩
                false
              = compareRun ⟨dl, dr, pyReplace tp "DATA" "LEFT", pr, false, []⟩ false :=
          compareRun_target_irrel dl dr _ _ pr lg1 [] false
        rw [hpass2, hr2]
        exact ⟨rfl, rfl⟩

/-- Witness for `c6_clear_and_full_concat` on a pair of one-key objects with
differing values and no configured target path. -/
theorem c6_clear_and_full_concat_witness :
    (compareWithRight
        (mkComparator (.obj [("a", .num 1)]) (.obj [("a", .num 2)]) none none)).2 = none ∧
    (compareWithLeft
        (mkComparator (.obj [("a", .num 1)]) (.obj [("a", .num 2)]) none none)).2 = none ∧
    ((fullCompare
        (mkComparator (.obj [("a", .num 1)]) (.obj [("a", .num 2)]) none none)).2 = none ∧
      (fullCompare
          (mkComparator (.obj [("a", .num 1)]) (.obj [("a", .num 2)]) none none)).1.log
        = (compareWithRight
              (mkComparator (.obj [("a", .num 1)]) (.obj [("a", .num 2)]) none none)).1.log
          ++ (compareWithLeft
                (mkComparator (.obj [("a", .num 1)]) (.obj [("a", .num 2)]) none none)).1.log) := by
  have hr :
      (compareWithRight
          (mkComparator (.obj [("a", .num 1)]) (.obj [("a", .num 2)]) none none)).2 = none := by
    simp [compareWithRight, mkComparator, editTargetPropPathRoot, compareRun, CState.ctx,
      compareDicts, compareDictsLoop, pyContains, pyGetStrKey, assocLookup, pyEq,
      keyToIgnore, stripIndices, stripIdxL, bracketMatchLen, lastCloseIdx, parenFreeChar,
      pyReplace, pyReplaceL, isPrefixL, setupPath]
  have hl :
      (compareWithLeft
          (mkComparator (.obj [("a", .num 1)]) (.obj [("a", .num 2)]) none none)).2 = none := by
    simp [compareWithLeft, mkComparator, editTargetPropPathRoot, compareRun, CState.ctx,
      compareDicts, compareDictsLoop, pyContains, pyGetStrKey, assocLookup, pyEq,
      keyToIgnore, stripIndices, stripIdxL, bracketMatchLen, lastCloseIdx, parenFreeChar,
      pyReplace, pyReplaceL, isPrefixL, setupPath]
  exact ⟨hr, hl,
    (c6_clear_and_full_concat
        (mkComparator (.obj [("a", .num 1)]) (.obj [("a", .num 2)]) none none)
        rfl).2 hr hl⟩

/-! ## Lemmas for self-comparison (reflexivity) -/

theorem anyKey_of_lookup {k : String} {v : PyVal} :
    ∀ {kvs : List (String × PyVal)}, assocLookup k kvs = some v →
      (kvs.any fun kv => kv.1 == k) = true := by
  intro kvs h
  induction kvs with
  | nil => simp [assocLookup] at h
  | cons kv rest ih =>
    obtain ⟨k2, v2⟩ := kv
    simp only [assocLookup] at h
    by_cases hk : k2 == k
    · simp [hk]
    · rw [if_neg (by simpa using hk)] at h
      simp [ih h]

theorem assocLookup_self :
    ∀ {kvs : List (String × PyVal)}, nodupKeysB kvs = true →
      ∀ {k : String} {v : PyVal}, (k, v) ∈ kvs → assocLookup k kvs = some v := by
  intro kvs
  induction kvs with
  | nil => intro _ k v hm; simp at hm
  | cons kv rest ih =>
    obtain ⟨k2, v2⟩ := kv
    intro hnd k v hm
    simp only [nodupKeysB, Bool.and_eq_true, Bool.not_eq_true'] at hnd
    rcases List.mem_cons.mp hm with heq | hrest
    · obtain ⟨rfl, rfl⟩ := Prod.mk.injEq .. ▸ heq
      simp [assocLookup]
    · have hne : (k2 == k) = false := by
        by_contra hkk
        have hk2k : k2 = k := by
          have := Bool.not_eq_false _ |>.mp hkk
          exact beq_iff_eq.mp this
        subst hk2k
        have : (rest.any fun kv => kv.1 == k2) = true := by
          refine List.any_eq_true.mpr ⟨(k2, v), ?_, by simp⟩
          exact hrest
        rw [this] at hnd
        simp at hnd
      simp only [assocLookup, hne, if_false]
      exact ih hnd.2 hrest

theorem wfEntriesB_mem :
    ∀ {kvs : List (String × PyVal)}, wfEntriesB kvs = true →
      ∀ {k : String} {v : PyVal}, (k, v) ∈ kvs → wfB v = true := by
  intro kvs
  induction kvs with
  | nil => intro _ k v hm; simp at hm
  | cons kv rest ih =>
    obtain ⟨k2, v2⟩ := kv
    intro hwf k v hm
    rw [wfEntriesB] at hwf
    rcases List.mem_cons.mp hm with heq | hrest
    · obtain ⟨rfl, rfl⟩ := Prod.mk.injEq .. ▸ heq
      exact (Bool.and_eq_true .. ▸ hwf).1
    · exact ih (Bool.and_eq_true .. ▸ hwf).2 hrest

theorem wfListB_mem :
    ∀ {xs : List PyVal}, wfListB xs = true → ∀ {v : PyVal}, v ∈ xs → wfB v = true := by
  intro xs
  induction xs with
  | nil => intro _ v hm; simp at hm
  | cons x rest ih =>
    intro hwf v hm
    rw [wfListB] at hwf
    rcases List.mem_cons.mp hm with rfl | hrest
    · exact (Bool.and_eq_true .. ▸ hwf).1
    · exact ih (Bool.and_eq_true .. ▸ hwf).2 hrest

theorem pyEq_refl_aux : ∀ n : Nat,
    (∀ v : PyVal, sizeOf v ≤ n → wfB v = true → pyEq v v = true) ∧
    (∀ xs : List PyVal, sizeOf xs ≤ n → wfListB xs = true → pyEqList xs xs = true) ∧
    (∀ rest kvs : List (String × PyVal), sizeOf rest ≤ n →
      (∀ kv ∈ rest, assocLookup kv.1 kvs = some kv.2 ∧ wfB kv.2 = true) →
      pyEqEntries rest kvs = true) := by
  intro n
  induction n using Nat.strong_induction_on with
  | _ n ih =>
    refine ⟨?_, ?_, ?_⟩
    · intro v hv hwf
      match v with
      | .null => simp [pyEq]
      | .bool b => simp [pyEq]
      | .num m => simp [pyEq]
      | .str s2 => simp [pyEq]
      | .arr xs =>
        have hsz : sizeOf xs < n := by
          have : sizeOf (PyVal.arr xs) = 1 + sizeOf xs := by simp
          omega
        rw [pyEq]
        exact (ih (sizeOf xs) hsz).2.1 xs le_rfl (by rw [wfB] at hwf; exact hwf)
      | .obj kvs =>
        have hsz : sizeOf kvs < n := by
          have : sizeOf (PyVal.obj kvs) = 1 + sizeOf kvs := by simp
          omega
        rw [pyEq]
        rw [wfB, Bool.and_eq_true] at hwf
        refine Bool.and_eq_true .. ▸ ⟨by simp, ?_⟩
        refine (ih (sizeOf kvs) hsz).2.2 kvs kvs le_rfl ?_
        intro kv hm
        obtain ⟨k2, v2⟩ := kv
        exact ⟨assocLookup_self hwf.1 hm, wfEntriesB_mem hwf.2 hm⟩
    · intro xs hx hwf
      match xs with
      | [] => simp [pyEqList]
      | x :: rest =>
        have hsx : sizeOf x < n := by
          have : sizeOf (x :: rest) = 1 + sizeOf x + sizeOf rest := by simp
          omega
        have hsr : sizeOf rest < n := by
          have : sizeOf (x :: rest) = 1 + sizeOf x + sizeOf rest := by
            simp
          have hp : 0 < sizeOf x := by cases x <;> simp_arith
          omega
        rw [wfListB, Bool.and_eq_true] at hwf
        rw [pyEqList]
        rw [Bool.and_eq_true]
        exact ⟨(ih (sizeOf x) hsx).1 x le_rfl hwf.1,
          (ih (sizeOf rest) hsr).2.1 rest le_rfl hwf.2⟩
    · intro rest kvs hr hmem
      match rest with
      | [] => simp [pyEqEntries]
      | (k, v) :: rest2 =>
        have hhead := hmem (k, v) (by simp)
        have hsv : sizeOf v < n := by
          have : sizeOf ((k, v) :: rest2) = 1 + (1 + sizeOf k + sizeOf v) + sizeOf rest2 := by
            simp
          omega
        have hsr : sizeOf rest2 < n := by
          have : sizeOf ((k, v) :: rest2) = 1 + (1 + sizeOf k + sizeOf v) + sizeOf rest2 := by
            simp
          have hp : 0 < sizeOf v := by cases v <;> simp_arith
          omega
        rw [pyEqEntries]
        rw [hhead.1]
        rw [Bool.and_eq_true]
        refine ⟨(ih (sizeOf v) hsv).1 v le_rfl hhead.2, ?_⟩
        exact (ih (sizeOf rest2) hsr).2.2 rest2 kvs le_rfl
          (fun kv hm => hmem kv (by simp [hm]))

theorem pyEq_refl {v : PyVal} (hwf : wfB v = true) : pyEq v v = true :=
  (pyEq_refl_aux (sizeOf v)).1 v le_rfl hwf

theorem get?_append_cons (pre : List PyVal) (x : PyVal) (rest : List PyVal) :
    (pre ++ x :: rest).get? pre.length = some x := by
  induction pre with
  | nil => rfl
  | cons p ps ih => simpa using ih

theorem selfCompare_aux : ∀ n : Nat,
    (∀ (ctx : Ctx) (p : String) (rest kvs : List (String × PyVal)),
      ctx.hasTargetKeyPath = false → sizeOf rest ≤ n →
      (∀ kv ∈ rest, assocLookup kv.1 kvs = some kv.2 ∧ wfB kv.2 = true) →
      compareDictsLoop ctx p rest (.obj kvs) = ([], none)) ∧
    (∀ (ctx : Ctx) (p : String) (vals pre : List PyVal),
      ctx.hasTargetKeyPath = false → sizeOf vals ≤ n → wfListB vals = true →
      comparePositionalLoop ctx p vals pre.length (pre ++ vals).length (.arr (pre ++ vals))
        = ([], none)) := by
  intro n
  induction n using Nat.strong_induction_on with
  | _ n ih =>
    constructor
    · intro ctx p rest kvs hg hsz hmem
      match rest with
      | [] => simp [compareDictsLoop]
      | (key, val) :: rest2 =>
        have hhead := hmem (key, val) (by simp)
        have hcont : pyContains (.obj kvs) key = .ok true := by
          simp [pyContains, anyKey_of_lookup hhead.1]
        have hget : pyGetStrKey (.obj kvs) key = .ok val := by
          simp [pyGetStrKey, hhead.1]
        have hsrest : sizeOf rest2 < n := by
          have h1 : sizeOf ((key, val) :: rest2)
              = 1 + (1 + sizeOf key + sizeOf val) + sizeOf rest2 := by simp
          omega
        have hsval : sizeOf val < n := by
          have h1 : sizeOf ((key, val) :: rest2)
              = 1 + (1 + sizeOf key + sizeOf val) + sizeOf rest2 := by simp
          omega
        have hrest : compareDictsLoop ctx p rest2 (.obj kvs) = ([], none) :=
          (ih (sizeOf rest2) hsrest).1 ctx p rest2 kvs hg le_rfl
            (fun kv hm => hmem kv (by simp [hm]))
        cases val with
        | obj kvs2 =>
          have hwf2 : nodupKeysB kvs2 = true ∧ wfEntriesB kvs2 = true := by
            have h2 := hhead.2
            rw [wfB, Bool.and_eq_true] at h2
            exact h2
          have hsz2 : sizeOf kvs2 < n := by
            have h2 : sizeOf (PyVal.obj kvs2) = 1 + sizeOf kvs2 := by simp
            omega
          have hrec : compareDicts ctx (setupPath p key) (.obj kvs2) (.obj kvs2)
              = ([], none) := by
            rw [compareDicts]
            refine (ih (sizeOf kvs2) hsz2).1 ctx _ kvs2 kvs2 hg le_rfl ?_
            intro kv hm
            obtain ⟨k2, v2⟩ := kv
            exact ⟨assocLookup_self hwf2.1 hm, wfEntriesB_mem hwf2.2 hm⟩
          simp [compareDictsLoop, hcont, hget, hrec, hrest]
        | arr xs2 =>
          have hwf2 : wfListB xs2 = true := by
            have h2 := hhead.2
            rw [wfB] at h2
            exact h2
          have hsz2 : sizeOf xs2 < n := by
            have h2 : sizeOf (PyVal.arr xs2) = 1 + sizeOf xs2 := by simp
            omega
          have hloop := (ih (sizeOf xs2) hsz2).2 ctx (setupPath p key) xs2 [] hg le_rfl hwf2
          simp only [List.nil_append, List.length_nil] at hloop
          have hrec : compareLists ctx (setupPath p key) (.arr xs2) (.arr xs2)
              = ([], none) := by
            rw [compareLists, hg]
            rw [if_neg (by simp)]
            simp only [pyLen]
            rw [checkArrayLengths]
            rw [if_neg (by omega), if_neg (by omega)]
            simp [hloop]
          simp [compareDictsLoop, hcont, hget, hrec, hrest]
        | null => simp [compareDictsLoop, hcont, hget, pyEq_refl hhead.2, hrest]
        | bool b => simp [compareDictsLoop, hcont, hget, pyEq_refl hhead.2, hrest]
        | num m => simp [compareDictsLoop, hcont, hget, pyEq_refl hhead.2, hrest]
        | str s2 => simp [compareDictsLoop, hcont, hget, pyEq_refl hhead.2, hrest]
    · intro ctx p vals pre hg hsz hwf
      match vals with
      | [] => simp [comparePositionalLoop]
      | val :: rest =>
        rw [wfListB, Bool.and_eq_true] at hwf
        have hlen : (pre.length == (pre ++ val :: rest).length) = false := by
          refine beq_eq_false_iff_ne .. |>.mpr ?_
          simp only [List.length_append, List.length_cons]
          omega
        have hidx : pyGetIdx (.arr (pre ++ val :: rest)) pre.length = .ok val := by
          simp only [pyGetIdx]
          rw [get?_append_cons]
        have hsrest : sizeOf rest < n := by
          have h1 : sizeOf (val :: rest) = 1 + sizeOf val + sizeOf rest := by simp
          have h2 : 0 < sizeOf val := by cases val <;> simp_arith
          omega
        have hsval : sizeOf val < n := by
          have h1 : sizeOf (val :: rest) = 1 + sizeOf val + sizeOf rest := by simp
          omega
        have hrest : comparePositionalLoop ctx p rest (pre.length + 1)
            (pre ++ val :: rest).length (.arr (pre ++ val :: rest)) = ([], none) := by
          have h0 := (ih (sizeOf rest) hsrest).2 ctx p rest (pre ++ [val]) hg le_rfl hwf.2
          have e1 : (pre ++ [val]) ++ rest = pre ++ val :: rest := by simp
          have e2 : (pre ++ [val]).length = pre.length + 1 := by simp
          rw [e1, e2] at h0
          exact h0
        simp only [List.length_append, List.length_cons] at hlen hrest
        cases val with
        | obj kvs2 =>
          have hwf2 : nodupKeysB kvs2 = true ∧ wfEntriesB kvs2 = true := by
            have h2 := hwf.1
            rw [wfB, Bool.and_eq_true] at h2
            exact h2
          have hsz2 : sizeOf kvs2 < n := by
            have h2 : sizeOf (PyVal.obj kvs2) = 1 + sizeOf kvs2 := by simp
            omega
          have hrec : compareDicts ctx
              (setupPath p ("<array>[" ++ toString pre.length ++ "]"))
              (.obj kvs2) (.obj kvs2) = ([], none) := by
            rw [compareDicts]
            refine (ih (sizeOf kvs2) hsz2).1 ctx _ kvs2 kvs2 hg le_rfl ?_
            intro kv hm
            obtain ⟨k2, v2⟩ := kv
            exact ⟨assocLookup_self hwf2.1 hm, wfEntriesB_mem hwf2.2 hm⟩
          simp [comparePositionalLoop, hlen, hidx, hrec, hrest]
        | arr xs2 =>
          have hwf2 : wfListB xs2 = true := by
            have h2 := hwf.1
            rw [wfB] at h2
            exact h2
          have hsz2 : sizeOf xs2 < n := by
            have h2 : sizeOf (PyVal.arr xs2) = 1 + sizeOf xs2 := by simp
            omega
          have hloop := (ih (sizeOf xs2) hsz2).2 ctx
            (setupPath p ("<array>[" ++ toString pre.length ++ "]")) xs2 [] hg le_rfl hwf2
          simp only [List.nil_append, List.length_nil] at hloop
          have hrec : compareLists ctx
              (setupPath p ("<array>[" ++ toString pre.length ++ "]"))
              (.arr xs2) (.arr xs2) = ([], none) := by
            rw [compareLists, hg]
            rw [if_neg (by simp)]
            simp only [pyLen]
            rw [checkArrayLengths]
            rw [if_neg (by omega), if_neg (by omega)]
            simp [hloop]
          simp [comparePositionalLoop, hlen, hidx, hrec, hrest]
        | null => simp [comparePositionalLoop, hlen, hidx, pyEq_refl hwf.1, hrest]
        | bool b => simp [comparePositionalLoop, hlen, hidx, pyEq_refl hwf.1, hrest]
        | num m => simp [comparePositionalLoop, hlen, hidx, pyEq_refl hwf.1, hrest]
        | str s2 => simp [comparePositionalLoop, hlen, hidx, pyEq_refl hwf.1, hrest]

theorem compareDicts_self (ctx : Ctx) (p : String) {kvs : List (String × PyVal)}
    (hg : ctx.hasTargetKeyPath = false) (hwf : wfB (.obj kvs) = true) :
    compareDicts ctx p (.obj kvs) (.obj kvs) = ([], none) := by
  rw [wfB, Bool.and_eq_true] at hwf
  rw [compareDicts]
  refine (selfCompare_aux (sizeOf kvs)).1 ctx p kvs kvs hg le_rfl ?_
  intro kv hm
  obtain ⟨k2, v2⟩ := kv
  exact ⟨assocLookup_self hwf.1 hm, wfEntriesB_mem hwf.2 hm⟩

theorem compareLists_self (ctx : Ctx) (p : String) {xs : List PyVal}
    (hg : ctx.hasTargetKeyPath = false) (hwf : wfB (.arr xs) = true) :
    compareLists ctx p (.arr xs) (.arr xs) = ([], none) := by
  rw [wfB] at hwf
  have hloop := (selfCompare_aux (sizeOf xs)).2 ctx p xs [] hg le_rfl hwf
  simp only [List.nil_append, List.length_nil] at hloop
  rw [compareLists, hg]
  rw [if_neg (by simp)]
  simp only [pyLen]
  rw [checkArrayLengths]
  rw [if_neg (by omega), if_neg (by omega)]
  simp [hloop]

/-! ## Claim C5 -/

/-- Claim C5: comparing a well-formed document whose root is an Object or an
Array against itself — in either single direction or with `full_compare`,
for any configured target-property path and ignore list — yields an empty
diff log and no error. -/
theorem c5_self_compare_empty_log (d : PyVal) (tp : Option String)
    (ig : Option (List String)) (hwf : wfB d = true)
    (hroot : (isObjVal d || isArrVal d) = true) :
    ((compareWithRight (mkComparator d d tp ig)).1.log = [] ∧
      (compareWithRight (mkComparator d d tp ig)).2 = none) ∧
    ((compareWithLeft (mkComparator d d tp ig)).1.log = [] ∧
      (compareWithLeft (mkComparator d d tp ig)).2 = none) ∧
    ((fullCompare (mkComparator d d tp ig)).1.log = [] ∧
      (fullCompare (mkComparator d d tp ig)).2 = none) := by
  have hrun : ∀ (t2 : String) (b : Bool),
      compareRun ⟨d, d, t2, ig.getD [], false, []⟩ b = ([], none) := by
    intro t2 b
    rw [compareRun]
    cases d with
    | obj kvs =>
      cases b
      · simpa [CState.ctx] using
          compareDicts_self (Ctx.mk t2 (ig.getD []) false) "LEFT" rfl hwf
      · simpa [CState.ctx] using
          compareDicts_self (Ctx.mk t2 (ig.getD []) false) "RIGHT" rfl hwf
    | arr xs =>
      cases b
      · simpa [CState.ctx] using
          compareLists_self (Ctx.mk t2 (ig.getD []) false) "LEFT" rfl hwf
      · simpa [CState.ctx] using
          compareLists_self (Ctx.mk t2 (ig.getD []) false) "RIGHT" rfl hwf
    | null => simp [isObjVal, isArrVal] at hroot
    | bool bb => simp [isObjVal, isArrVal] at hroot
    | num m => simp [isObjVal, isArrVal] at hroot
    | str s2 => simp [isObjVal, isArrVal] at hroot
  refine ⟨?_, ?_, ?_⟩
  · rw [compareWithRight_spec]
    dsimp only [mkComparator]
    rw [hrun]
    exact ⟨rfl, rfl⟩
  · rw [compareWithLeft_spec]
    dsimp only [mkComparator]
    rw [hrun]
    exact ⟨rfl, rfl⟩
  · rw [fullCompare_spec]
    dsimp only [mkComparator]
    rw [hrun]
    dsimp only
    rw [hrun]
    exact ⟨rfl, rfl⟩

/-- Witness for `c5_self_compare_empty_log` on a document with nested
object, array and scalar structure. -/
theorem c5_self_compare_empty_log_witness :
    wfB (.obj [("a", .num 1),
          ("b", .arr [.num 2, .obj [("c", .str "x")], .null]),
          ("d", .bool true)]) = true ∧
    (fullCompare (mkComparator
        (.obj [("a", .num 1),
          ("b", .arr [.num 2, .obj [("c", .str "x")], .null]),
          ("d", .bool true)])
        (.obj [("a", .num 1),
          ("b", .arr [.num 2, .obj [("c", .str "x")], .null]),
          ("d", .bool true)])
        none none)).1.log = [] := by
  refine ⟨?_, ?_⟩
  · simp [wfB, wfEntriesB, wfListB, nodupKeysB]
  · exact (c5_self_compare_empty_log
      (.obj [("a", .num 1),
        ("b", .arr [.num 2, .obj [("c", .str "x")], .null]),
        ("d", .bool true)])
      none none
      (by simp [wfB, wfEntriesB, wfListB, nodupKeysB])
      (by simp [isObjVal])).2.2.1

/-! ## Claim C2 -/

/-- Claim C2 (code bug): in the positional strategy, the bound guard is
`idx == len(act_data)` rather than `idx >= len(act_data)`, so only the first
out-of-range expected index gets a `missingArrayItem` entry; at the next
index the loop evaluates `act_data[idx]` and raises `IndexError`.  For
expected `[1, 2, 3]` against actual `[1]`, the log holds the
`lackOfArrayItems(3,1)` entry and a single `missingArrayItem` for index 1,
and the comparison aborts with `IndexError` instead of running to
completion with `missingArrayItem` entries for both indices 1 and 2. -/
theorem c2_positional_guard_crash :
    compareWithRight
        (mkComparator (.arr [.num 1, .num 2, .num 3]) (.arr [.num 1]) none none)
      = ({ mkComparator (.arr [.num 1, .num 2, .num 3]) (.arr [.num 1]) none none with
            log := [.lackOfArrayItems "RIGHT.<array>" 3 1,
                    .missingArrayItem "RIGHT.<array>[1]" (.num 2) none],
            targetProperty := "" },
          some .indexError) := rfl

/-! ## Claim C1 -/

/-- Claim C1 (code bug): `_compare_lists` activates the keyed strategy only
when the instance has a `target_key_path` attribute, which no code of the
class ever creates — configuring `target_property` (the documented way to
request keyed matching, per the constructor docstring) leaves the gate
false.  On the claim's example with target property `"DATA.<array>.id"`,
the comparator as constructed takes the positional branch and records four
`unequalValues` entries instead of the single keyed one (first conjunct).
The keyed strategy itself behaves exactly as the claim describes: were the
gate set, the same comparison would record exactly one `unequalValues`
entry for `"v"` (`"a"` vs `"x"`), and permuting the actual array leaves
that result unchanged (second and third conjuncts). -/
theorem c1_keyed_strategy_not_wired :
    ((compareWithRight (mkComparator
          (.arr [.obj [("id", .num 1), ("v", .str "a")],
                 .obj [("id", .num 2), ("v", .str "b")]])
          (.arr [.obj [("id", .num 2), ("v", .str "b")],
                 .obj [("id", .num 1), ("v", .str "x")]])
          (some "DATA.<array>.id") none)).1.log
      = [.unequalValues "RIGHT.<array>[0].id" (.num 1) (.num 2),
         .unequalValues "RIGHT.<array>[0].v" (.str "a") (.str "b"),
         .unequalValues "RIGHT.<array>[1].id" (.num 2) (.num 1),
         .unequalValues "RIGHT.<array>[1].v" (.str "b") (.str "x")]) ∧
    ((compareWithRight { mkComparator
          (.arr [.obj [("id", .num 1), ("v", .str "a")],
                 .obj [("id", .num 2), ("v", .str "b")]])
          (.arr [.obj [("id", .num 2), ("v", .str "b")],
                 .obj [("id", .num 1), ("v", .str "x")]])
          (some "DATA.<array>.id") none with hasTargetKeyPath := true }).1.log
      = [.unequalValues "RIGHT.<array[0]>.v" (.str "a") (.str "x")]) ∧
    ((compareWithRight { mkComparator
          (.arr [.obj [("id", .num 1), ("v", .str "a")],
                 .obj [("id", .num 2), ("v", .str "b")]])
          (.arr [.obj [("id", .num 1), ("v", .str "x")],
                 .obj [("id", .num 2), ("v", .str "b")]])
          (some "DATA.<array>.id") none with hasTargetKeyPath := true }).1.log
      = [.unequalValues "RIGHT.<array[0]>.v" (.str "a") (.str "x")]) :=
  ⟨rfl, rfl, rfl⟩

/-! ## Claim C9 -/

theorem pyEq_num_str (n : Int) (s2 : String) : pyEq (.num n) (.str s2) = false := by
  simp [pyEq]

theorem pyEq_bool_num (b : Bool) (m : Int) :
    pyEq (.bool b) (.num m) = (m == if b then 1 else 0) := by
  simp [pyEq]

/-- Claim C9, counterexample: the scalar leaves `true` and `1` have
different JSON types (boolean vs number), yet comparing `{"k": true}`
against `{"k": 1}` records nothing — Python `==` treats `True` and `1` as
equal — refuting the claim that every cross-type scalar pair yields an
`unequalValues` entry. -/
theorem c9_counterexample :
    (compareWithRight (mkComparator (.obj [("k", .bool true)]) (.obj [("k", .num 1)])
        none none)).1.log = [] ∧
    (compareWithRight (mkComparator (.obj [("k", .bool true)]) (.obj [("k", .num 1)])
        none none)).2 = none := by
  constructor <;>
    simp [compareWithRight, mkComparator, editTargetPropPathRoot, compareRun, CState.ctx,
      compareDicts, compareDictsLoop, pyContains, pyGetStrKey, assocLookup, pyEq,
      pyReplace, pyReplaceL, isPrefixL, setupPath]

/-- Claim C9 as amended: scalar leaf comparison is Python native equality:
a number and the numerically-equal string are unequal and always recorded
(unless the path is ignored), but a boolean compares equal to the
numerically-equal number (`True == 1`, `False == 0`), so such a pair is
not recorded as a mismatch. -/
theorem c9_scalar_equality_is_python_eq (ctx : Ctx) (p k : String) (n m : Int)
    (s2 : String) (b : Bool) :
    (compareDicts ctx p (.obj [(k, .num n)]) (.obj [(k, .str s2)])
      = ((if (ctx.propertiesToIgnore.any fun q =>
              q == pyReplace (pyReplace (stripIndices (setupPath p k)) "RIGHT" "DATA")
                "LEFT" "DATA") = true
           then []
           else [.unequalValues (setupPath p k) (.num n) (.str s2)]), none)) ∧
    (pyEq (.bool b) (.num m) = (m == if b then 1 else 0)) ∧
    (compareDicts ctx p (.obj [(k, .bool b)]) (.obj [(k, .num m)])
      = ((if m = (if b then 1 else 0) then []
          else if (ctx.propertiesToIgnore.any fun q =>
              q == pyReplace (pyReplace (stripIndices (setupPath p k)) "RIGHT" "DATA")
                "LEFT" "DATA") = true
           then []
           else [.unequalValues (setupPath p k) (.bool b) (.num m)]), none)) := by
  refine ⟨?_, pyEq_bool_num b m, ?_⟩
  · by_cases hig :
        (ctx.propertiesToIgnore.any fun q =>
          q == pyReplace (pyReplace (stripIndices (setupPath p k)) "RIGHT" "DATA")
            "LEFT" "DATA") = true
    · simp [compareDicts, compareDictsLoop, pyContains, pyGetStrKey, assocLookup,
        pyEq_num_str, keyToIgnore, hig]
    · simp [compareDicts, compareDictsLoop, pyContains, pyGetStrKey, assocLookup,
        pyEq_num_str, keyToIgnore, hig]
  · by_cases hm : m = (if b then 1 else 0)
    · simp [compareDicts, compareDictsLoop, pyContains, pyGetStrKey, assocLookup,
        pyEq_bool_num, keyToIgnore, hm]
    · by_cases hig :
          (ctx.propertiesToIgnore.any fun q =>
            q == pyReplace (pyReplace (stripIndices (setupPath p k)) "RIGHT" "DATA")
              "LEFT" "DATA") = true
      · simp [compareDicts, compareDictsLoop, pyContains, pyGetStrKey, assocLookup,
          pyEq_bool_num, keyToIgnore, hig, hm]
      · simp [compareDicts, compareDictsLoop, pyContains, pyGetStrKey, assocLookup,
          pyEq_bool_num, keyToIgnore, hig, hm]

/-! ## Claim C4 -/

/-- Claim C4: the ignore-set suppression applies exactly to the
scalar-equality leaf branch of object-key comparison: (a) a scalar
mismatch under a dict key is suppressed if and only if the current path,
index-stripped and with the root labels rewritten to `DATA`, is a member
of the ignore set (so a sibling path not in the set is still reported);
(b) `missingProperty` entries and (c) `incorrectType` entries are recorded
regardless of the ignore set; (d) a scalar mismatch reached through the
positional array branch is recorded even when its normalized path is in
the ignore set. -/
theorem c4_ignore_only_scalar_dict_branch (ctx : Ctx) (p k : String) (v w : PyVal)
    (kvs : List (String × PyVal)) (hv : isScalarVal v = true) (hw : isObjVal w = false)
    (hne : pyEq v w = false) (hg : ctx.hasTargetKeyPath = false) :
    (compareDicts ctx p (.obj [(k, v)]) (.obj [(k, w)])
      = ((if (ctx.propertiesToIgnore.any fun q =>
              q == pyReplace (pyReplace (stripIndices (setupPath p k)) "RIGHT" "DATA")
                "LEFT" "DATA") = true
           then []
           else [.unequalValues (setupPath p k) v w]), none)) ∧
    (compareDicts ctx p (.obj [(k, v)]) (.obj [])
      = ([.missingProperty (setupPath p k)], none)) ∧
    (compareDicts ctx p (.obj [(k, .obj kvs)]) (.obj [(k, w)])
      = ([.incorrectType (setupPath p k) (.obj []) w], none)) ∧
    (compareLists ctx p (.arr [v]) (.arr [w])
      = ([.unequalValues (setupPath p "<array>[0]") v w], none)) := by
  refine ⟨?_, ?_, ?_, ?_⟩
  · by_cases hig :
        (ctx.propertiesToIgnore.any fun q =>
          q == pyReplace (pyReplace (stripIndices (setupPath p k)) "RIGHT" "DATA")
            "LEFT" "DATA") = true
    · cases v <;> simp_all [isScalarVal] <;>
        simp [compareDicts, compareDictsLoop, pyContains, pyGetStrKey, assocLookup,
          keyToIgnore, hig, hne]
    · cases v <;> simp_all [isScalarVal] <;>
        simp [compareDicts, compareDictsLoop, pyContains, pyGetStrKey, assocLookup,
          keyToIgnore, hig, hne]
  · cases v <;> simp_all [isScalarVal] <;>
      simp [compareDicts, compareDictsLoop, pyContains]
  · cases w <;> simp_all [isObjVal] <;>
      simp [compareDicts, compareDictsLoop, pyContains, pyGetStrKey, assocLookup]
  · cases v <;> simp_all [isScalarVal] <;>
      simp [compareLists, compareItemsOrder, comparePositionalLoop, checkArrayLengths,
        pyLen, pyGetIdx, hg, hne, natToString0, setupPath]

/-- Witness for `c4_ignore_only_scalar_dict_branch`: ignore set
`["DATA.a"]`, scalar mismatch at `DATA.a` suppressed in the dict branch,
plus the three never-suppressed cases, all at concrete inputs. -/
theorem c4_ignore_only_scalar_dict_branch_witness :
    (compareDicts (Ctx.mk "" ["DATA.a"] false) "DATA"
        (.obj [("a", .num 1)]) (.obj [("a", .num 2)]) = ([], none)) ∧
    (compareDicts (Ctx.mk "" ["DATA.a"] false) "DATA"
        (.obj [("a", .num 1)]) (.obj []) = ([.missingProperty "DATA.a"], none)) ∧
    (compareDicts (Ctx.mk "" ["DATA.a"] false) "DATA"
        (.obj [("a", .obj [("b", .num 1)])]) (.obj [("a", .num 2)])
      = ([.incorrectType "DATA.a" (.obj []) (.num 2)], none)) ∧
    (compareLists (Ctx.mk "" ["DATA.<array>"] false) "DATA"
        (.arr [.num 1]) (.arr [.num 2])
      = ([.unequalValues "DATA.<array>[0]" (.num 1) (.num 2)], none)) := by
  have h1 := c4_ignore_only_scalar_dict_branch (Ctx.mk "" ["DATA.a"] false) "DATA" "a"
    (.num 1) (.num 2) [("b", .num 1)] (by decide) (by decide) (by simp [pyEq]) rfl
  have h2 := c4_ignore_only_scalar_dict_branch (Ctx.mk "" ["DATA.<array>"] false) "DATA" "a"
    (.num 1) (.num 2) [("b", .num 1)] (by decide) (by decide) (by simp [pyEq]) rfl
  refine ⟨?_, ?_, ?_, ?_⟩
  · rw [h1.1]
    rfl
  · exact h1.2.1
  · exact h1.2.2.1
  · rw [h2.2.2.2]
    simp [setupPath]

/-! ## Claim C3 -/

/-- Modelled from the spec (the dispatch rule claim C3 asserts): top-level
dispatch driven by the expected document's root shape — an Object root
dispatches to object comparison, an Array root to array comparison, any
other root type fails immediately. -/
def dispatchByExpectedRoot (ctx : Ctx) (rootLog : String) (expected actual : PyVal) :
    CompRes :=
  match expected with
  | .obj _ => compareDicts ctx rootLog expected actual
  | .arr _ => compareLists ctx rootLog expected actual
  | _ => ([], some .runtimeError)

/-- Claim C3, counterexample: with left document `42` and right document
`{}`, the left-as-expected direction has expected root `{}` (an Object),
so by the claim the comparison should dispatch to object comparison and
complete with an empty log — as `dispatchByExpectedRoot` does — but the
code matches on `self.left_data` and raises immediately in both
directions. -/
theorem c3_counterexample :
    (compareWithLeft (mkComparator (.num 42) (.obj []) none none)).2
        = some .runtimeError ∧
    dispatchByExpectedRoot (Ctx.mk "" [] false) "LEFT" (.obj []) (.num 42) = ([], none) ∧
    (compareWithLeft (mkComparator (.num 42) (.obj []) none none)).1.log = [] := by
  refine ⟨?_, ?_, ?_⟩
  · simp [compareWithLeft, mkComparator, editTargetPropPathRoot, compareRun, CState.ctx,
      pyReplace, pyReplaceL]
  · simp [dispatchByExpectedRoot, compareDicts, compareDictsLoop]
  · simp [compareWithLeft, mkComparator, editTargetPropPathRoot, compareRun, CState.ctx,
      pyReplace, pyReplaceL]

/-- Claim C3 as amended: top-level dispatch is driven by the left
document's root shape in both directions, not by the expected document's:
a left root that is neither Object nor Array raises immediately in either
direction (empty log), regardless of the right document; when both roots
are Objects, either direction dispatches to object comparison with the
direction's (expected, actual) operands; and likewise to array comparison
when both roots are Arrays. -/
theorem c3_dispatch_follows_left_root :
    (∀ (st : CState) (b : Bool), isScalarVal st.left = true →
      compareRun st b = ([], some .runtimeError)) ∧
    (∀ (st : CState) (kvs m : List (String × PyVal)),
      st.left = .obj kvs → st.right = .obj m →
      compareRun st true = compareDicts st.ctx "RIGHT" (.obj kvs) (.obj m) ∧
      compareRun st false = compareDicts st.ctx "LEFT" (.obj m) (.obj kvs)) ∧
    (∀ (st : CState) (xs ys : List PyVal),
      st.left = .arr xs → st.right = .arr ys →
      compareRun st true = compareLists st.ctx "RIGHT" (.arr xs) (.arr ys) ∧
      compareRun st false = compareLists st.ctx "LEFT" (.arr ys) (.arr xs)) := by
  refine ⟨?_, ?_, ?_⟩
  · intro st b hsc
    rcases st with ⟨l, r, tp, pr, g, lg⟩
    cases l with
    | null => rfl
    | bool bb => rfl
    | num m => rfl
    | str s2 => rfl
    | obj kvs => simp [isScalarVal] at hsc
    | arr xs => simp [isScalarVal] at hsc
  · intro st kvs m hl hr
    rcases st with ⟨l, r, tp, pr, g, lg⟩
    dsimp only at hl hr
    subst hl
    subst hr
    exact ⟨rfl, rfl⟩
  · intro st xs ys hl hr
    rcases st with ⟨l, r, tp, pr, g, lg⟩
    dsimp only at hl hr
    subst hl
    subst hr
    exact ⟨rfl, rfl⟩

/-- Witness for `c3_dispatch_follows_left_root`: a scalar left root raises
in the right-as-expected direction even though the right document is an
Object, and two Object roots dispatch to object comparison. -/
theorem c3_dispatch_follows_left_root_witness :
    isScalarVal (CState.mk (.num 42) (.obj []) "" [] false []).left = true ∧
    compareRun (CState.mk (.num 42) (.obj []) "" [] false []) true
      = ([], some .runtimeError) ∧
    compareRun (CState.mk (.obj []) (.obj [("a", .num 1)]) "" [] false []) false
      = compareDicts (CState.mk (.obj []) (.obj [("a", .num 1)]) "" [] false []).ctx
          "LEFT" (.obj [("a", .num 1)]) (.obj []) := by
  refine ⟨by decide, ?_, ?_⟩
  · exact c3_dispatch_follows_left_root.1 (CState.mk (.num 42) (.obj []) "" [] false [])
      true (by decide)
  · exact (c3_dispatch_follows_left_root.2.1 (CState.mk (.obj []) (.obj [("a", .num 1)])
      "" [] false []) [] [("a", .num 1)] rfl rfl).2

/-! ## Claim C10 -/

/-- Index of the first element of a list satisfying `f`: the specification
of a left-to-right linear scan. -/
def firstMatchIdx (f : PyVal → Bool) : List PyVal → Option Nat
  | [] => none
  | e :: rest => if f e then some 0 else (firstMatchIdx f rest).map (fun j => j + 1)

theorem getIdxOfSimilarRow_spec (prop : String) (tv : PyVal) :
    ∀ (elems : List PyVal) (i : Nat), (∀ e ∈ elems, isObjVal e = true) →
      getIdxOfSimilarRow prop tv elems i
        = .ok ((firstMatchIdx (fun e => pyEq (objGetD e prop) tv) elems).map
            (fun j => j + i)) := by
  intro elems
  induction elems with
  | nil => intro i _; simp [getIdxOfSimilarRow, firstMatchIdx]
  | cons e rest ih =>
    intro i hobj
    have he : isObjVal e = true := hobj e (by simp)
    cases e with
    | obj kvs =>
      have hstep : getIdxOfSimilarRow prop tv (PyVal.obj kvs :: rest) i
          = if pyEq (objGetD (.obj kvs) prop) tv = true then .ok (some i)
            else getIdxOfSimilarRow prop tv rest (i + 1) := rfl
      rw [hstep]
      by_cases hf : pyEq (objGetD (.obj kvs) prop) tv = true
      · simp [firstMatchIdx, hf]
      · rw [if_neg hf, ih (i + 1) (fun e2 hm => hobj e2 (by simp [hm]))]
        rw [firstMatchIdx, if_neg hf]
        simp only [Option.map_map]
        congr 2
        funext j
        simp only [Function.comp_apply]
        omega
    | null => simp [isObjVal] at he
    | bool bb => simp [isObjVal] at he
    | num mm => simp [isObjVal] at he
    | str ss => simp [isObjVal] at he
    | arr xs => simp [isObjVal] at he

/-- Claim C10: in the keyed scan, an actual element that is a dict but
lacks the identifying property is never an error: `.get` yields `None`,
so the scan selects the first element whose (possibly defaulted-to-null)
value for the property compares equal to the expected identifying value —
a property-less element is a non-match unless the expected value is itself
null, in which case the first element lacking the property or holding null
is selected; and null compares equal only to null. -/
theorem c10_keyed_scan_null_default (prop : String) (tv : PyVal) (elems : List PyVal)
    (hobj : ∀ e ∈ elems, isObjVal e = true) :
    (getIdxOfSimilarRow prop tv elems 0
      = .ok (firstMatchIdx (fun e => pyEq (objGetD e prop) tv) elems)) ∧
    (∀ kvs : List (String × PyVal), assocLookup prop kvs = none →
      objGetD (.obj kvs) prop = .null) ∧
    (∀ tv2 : PyVal, pyEq PyVal.null tv2 = true ↔ tv2 = PyVal.null) := by
  refine ⟨?_, ?_, ?_⟩
  · rw [getIdxOfSimilarRow_spec prop tv elems 0 hobj]
    congr 1
    cases firstMatchIdx (fun e => pyEq (objGetD e prop) tv) elems <;> simp
  · intro kvs hnone
    simp [objGetD, hnone]
  · intro tv2
    cases tv2 <;> simp [pyEq]

/-- Witness for `c10_keyed_scan_null_default`: scanning for `"id" = 1`
skips a dict lacking `"id"` and finds the later match; scanning for
`"id" = null` selects the first dict lacking `"id"`. -/
theorem c10_keyed_scan_null_default_witness :
    (∀ e ∈ [PyVal.obj [("x", .num 5)], PyVal.obj [("id", .num 1)]], isObjVal e = true) ∧
    getIdxOfSimilarRow "id" (.num 1)
        [PyVal.obj [("x", .num 5)], PyVal.obj [("id", .num 1)]] 0 = .ok (some 1) ∧
    getIdxOfSimilarRow "id" .null
        [PyVal.obj [("x", .num 5)], PyVal.obj [("id", .num 1)]] 0 = .ok (some 0) := by
  have hobj : ∀ e ∈ [PyVal.obj [("x", .num 5)], PyVal.obj [("id", .num 1)]],
      isObjVal e = true := by decide
  refine ⟨hobj, ?_, ?_⟩
  · rw [(c10_keyed_scan_null_default "id" (.num 1) _ hobj).1]
    simp [firstMatchIdx, objGetD, assocLookup, pyEq]
  · rw [(c10_keyed_scan_null_default "id" .null _ hobj).1]
    simp [firstMatchIdx, objGetD, assocLookup, pyEq]

/-! ## Claim C8 -/

theorem stripIdxLGo_skip :
    ∀ (k : Nat) (s : List Char), stripIdxLGo s k = stripIdxLGo (s.drop k) 0 := by
  intro k
  induction k with
  | zero => intro s; rw [List.drop_zero]
  | succ k ih =>
    intro s
    cases s with
    | nil => rfl
    | cons c t =>
      rw [List.drop_succ_cons]
      exact ih t

theorem stripIdxL_nil : stripIdxL [] = [] := rfl

theorem stripIdxL_cons_not_bracket {c : Char} (h : ¬c = '[') (t : List Char) :
    stripIdxL (c :: t) = c :: stripIdxL t := by
  have h0 : stripIdxL (c :: t)
      = if c == '[' then
          match bracketMatchLen t with
          | some n => stripIdxLGo t n
          | none => c :: stripIdxLGo t 0
        else c :: stripIdxLGo t 0 := rfl
  rw [h0, if_neg (by simpa using h)]
  rfl

theorem stripIdxL_cons_some {t : List Char} {k : Nat} (h : bracketMatchLen t = some k) :
    stripIdxL ('[' :: t) = stripIdxL (t.drop k) := by
  have h0 : stripIdxL ('[' :: t)
      = if ('[' : Char) == '[' then
          match bracketMatchLen t with
          | some n => stripIdxLGo t n
          | none => '[' :: stripIdxLGo t 0
        else '[' :: stripIdxLGo t 0 := rfl
  rw [h0, if_pos (by decide), h]
  exact stripIdxLGo_skip k t

theorem stripIdxL_cons_none {t : List Char} (h : bracketMatchLen t = none) :
    stripIdxL ('[' :: t) = '[' :: stripIdxL t := by
  have h0 : stripIdxL ('[' :: t)
      = if ('[' : Char) == '[' then
          match bracketMatchLen t with
          | some n => stripIdxLGo t n
          | none => '[' :: stripIdxLGo t 0
        else '[' :: stripIdxLGo t 0 := rfl
  rw [h0, if_pos (by decide), h]
  rfl

/-- A character list is stable for the index stripper: no `'['` in it
starts a regex match. -/
def cleanB : List Char → Bool
  | [] => true
  | c :: t => (if c = '[' then (bracketMatchLen t).isNone else true) && cleanB t

theorem stripIdxL_of_cleanB : ∀ {l : List Char}, cleanB l = true → stripIdxL l = l := by
  intro l
  induction l with
  | nil => intro _; exact stripIdxL_nil
  | cons c t ih =>
    intro hc
    rw [cleanB, Bool.and_eq_true] at hc
    by_cases hbr : c = '['
    · rw [if_pos hbr] at hc
      subst hbr
      rcases hm : bracketMatchLen t with - | n
      · rw [stripIdxL_cons_none hm, ih hc.2]
      · rw [hm] at hc
        simp [Option.isNone] at hc
    · rw [stripIdxL_cons_not_bracket hbr, ih hc.2]

theorem stripIdxL_sublist : ∀ s : List Char, List.Sublist (stripIdxL s) s := by
  have main : ∀ n (s : List Char), s.length ≤ n → List.Sublist (stripIdxL s) s := by
    intro n
    induction n with
    | zero =>
      intro s hs
      have hs0 : s = [] := List.eq_nil_of_length_eq_zero (by omega)
      subst hs0
      rw [stripIdxL_nil]
    | succ n ih =>
      intro s hs
      cases s with
      | nil => rw [stripIdxL_nil]
      | cons c t =>
        by_cases hbr : c = '['
        · subst hbr
          rcases hm : bracketMatchLen t with - | k
          · rw [stripIdxL_cons_none hm]
            exact (ih t (by simp at hs; omega)).cons₂ _
          · rw [stripIdxL_cons_some hm]
            have h1 : List.Sublist (stripIdxL (t.drop k)) (t.drop k) :=
              ih (t.drop k) (by simp at hs ⊢; omega)
            have h2 : List.Sublist (t.drop k) t := List.drop_sublist k t
            exact (h1.trans h2).cons _
        · rw [stripIdxL_cons_not_bracket hbr]
          exact (ih t (by simp at hs; omega)).cons₂ c
  exact fun s => main s.length s le_rfl

theorem lastCloseIdx_eq_none_iff {l : List Char} :
    lastCloseIdx l = none ↔ (']' : Char) ∉ l := by
  induction l with
  | nil => simp [lastCloseIdx]
  | cons c t ih =>
    rw [lastCloseIdx]
    rcases hm : lastCloseIdx t with - | j
    · rw [hm] at ih
      by_cases hc : c = ']'
      · simp [hc]
      · simp [hc, Ne.symm hc, ih.mp rfl]
    · constructor
      · intro hx
        simp at hx
      · intro hx
        have h2 : (']' : Char) ∉ t := fun hmem => hx (List.mem_cons_of_mem c hmem)
        rw [← ih] at h2
        rw [h2] at hm
        cases hm

theorem lastCloseIdx_lt_length : ∀ {l : List Char} {j : Nat},
    lastCloseIdx l = some j → j < l.length := by
  intro l
  induction l with
  | nil => intro j h; cases h
  | cons c t ih =>
    intro j h
    rw [lastCloseIdx] at h
    rcases hm : lastCloseIdx t with - | j2
    · rw [hm] at h
      by_cases hc : (c == ']') = true
      · rw [if_pos hc] at h
        cases h
        simp
      · rw [if_neg hc] at h
        cases h
    · rw [hm] at h
      cases h
      have := ih hm
      simp
      omega

theorem takeWhile_all {f : Char → Bool} : ∀ {l : List Char},
    (∀ c ∈ l, f c = true) → l.takeWhile f = l := by
  intro l
  induction l with
  | nil => intro _; rfl
  | cons c t ih =>
    intro hall
    rw [List.takeWhile_cons, if_pos (hall c (by simp))]
    rw [ih (fun c2 hm => hall c2 (by simp [hm]))]

theorem takeWhile_append_block {f : Char → Bool} {p : Char} (v : List Char)
    (hp : f p = false) : ∀ {u : List Char}, (∀ c ∈ u, f c = true) →
      (u ++ p :: v).takeWhile f = u := by
  intro u
  induction u with
  | nil => intro _; simp [List.takeWhile_cons, hp]
  | cons c t ih =>
    intro hall
    rw [List.cons_append, List.takeWhile_cons, if_pos (hall c (by simp))]
    rw [ih (fun c2 hm => hall c2 (by simp [hm]))]

theorem bracketMatchLen_append_paren {u : List Char} {p : Char} (v : List Char)
    (hu : ∀ c ∈ u, parenFreeChar c = true) (hp : parenFreeChar p = false) :
    bracketMatchLen (u ++ p :: v) = bracketMatchLen u := by
  rw [bracketMatchLen, bracketMatchLen]
  rw [takeWhile_append_block v hp hu, takeWhile_all hu]

theorem bracketMatchLen_le_length {u : List Char} {n : Nat}
    (hu : ∀ c ∈ u, parenFreeChar c = true) (h : bracketMatchLen u = some n) :
    n ≤ u.length := by
  rw [bracketMatchLen] at h
  rcases hm : lastCloseIdx (u.takeWhile parenFreeChar) with - | j
  · rw [hm] at h; cases h
  · rw [hm] at h
    cases h
    have h1 := lastCloseIdx_lt_length hm
    rw [takeWhile_all hu] at h1
    omega

theorem paren_ne_bracket {p : Char} (hp : parenFreeChar p = false) : ¬p = '[' := by
  intro hcontra
  subst hcontra
  simp [parenFreeChar] at hp

theorem drop_append_of_le : ∀ (u : List Char) (k : Nat) (w : List Char),
    k ≤ u.length → (u ++ w).drop k = u.drop k ++ w := by
  intro u
  induction u with
  | nil =>
    intro k w hk
    simp at hk
    subst hk
    simp
  | cons c t ih =>
    intro k w hk
    cases k with
    | zero => simp
    | succ k2 =>
      rw [List.cons_append, List.drop_succ_cons, List.drop_succ_cons]
      exact ih k2 w (by simpa using hk)

theorem stripIdxL_append_paren {p : Char} (hp : parenFreeChar p = false) :
    ∀ (u v : List Char), (∀ c ∈ u, parenFreeChar c = true) →
      stripIdxL (u ++ p :: v) = stripIdxL u ++ p :: stripIdxL v := by
  have main : ∀ n (u v : List Char), u.length ≤ n →
      (∀ c ∈ u, parenFreeChar c = true) →
      stripIdxL (u ++ p :: v) = stripIdxL u ++ p :: stripIdxL v := by
    intro n
    induction n with
    | zero =>
      intro u v hu _
      have hu0 : u = [] := List.eq_nil_of_length_eq_zero (by omega)
      subst hu0
      simp only [List.nil_append]
      rw [stripIdxL_cons_not_bracket (paren_ne_bracket hp), stripIdxL_nil]
      rfl
    | succ n ih =>
      intro u v hlen hall
      cases u with
      | nil =>
        simp only [List.nil_append]
        rw [stripIdxL_cons_not_bracket (paren_ne_bracket hp), stripIdxL_nil]
        rfl
      | cons c t =>
        have hallt : ∀ c2 ∈ t, parenFreeChar c2 = true :=
          fun c2 hm => hall c2 (by simp [hm])
        rw [List.cons_append]
        by_cases hbr : c = '['
        · subst hbr
          rcases hm : bracketMatchLen t with - | k
          · rw [stripIdxL_cons_none (by rw [bracketMatchLen_append_paren v hallt hp]; exact hm)]
            rw [stripIdxL_cons_none hm]
            rw [ih t v (by simp at hlen; omega) hallt]
            rfl
          · have hk : k ≤ t.length := bracketMatchLen_le_length hallt hm
            rw [stripIdxL_cons_some (by rw [bracketMatchLen_append_paren v hallt hp]; exact hm)]
            rw [stripIdxL_cons_some hm]
            rw [drop_append_of_le t k (p :: v) hk]
            exact ih (t.drop k) v (by simp at hlen ⊢; omega)
              (fun c2 hm2 => hallt c2 ((List.drop_sublist k t).subset hm2))
        · rw [stripIdxL_cons_not_bracket hbr]
          rw [stripIdxL_cons_not_bracket hbr]
          rw [ih t v (by simp at hlen; omega) hallt]
          rfl
  exact fun u v hu => main u.length u v le_rfl hu

theorem dropWhile_head_false {f : Char → Bool} : ∀ {l : List Char} {p : Char}
    {v : List Char}, l.dropWhile f = p :: v → f p = false := by
  intro l
  induction l with
  | nil => intro p v h; cases h
  | cons c t ih =>
    intro p v h
    rw [List.dropWhile_cons] at h
    by_cases hc : f c = true
    · rw [if_pos hc] at h
      exact ih h
    · rw [if_neg hc] at h
      cases h
      simpa using hc

theorem mem_takeWhile_true {f : Char → Bool} : ∀ {l : List Char} {c : Char},
    c ∈ l.takeWhile f → f c = true := by
  intro l
  induction l with
  | nil => intro c h; simp at h
  | cons a t ih =>
    intro c h
    rw [List.takeWhile_cons] at h
    by_cases ha : f a = true
    · rw [if_pos ha] at h
      rcases List.mem_cons.mp h with rfl | h2
      · exact ha
      · exact ih h2
    · rw [if_neg ha] at h
      simp at h

theorem bracketMatchLen_none_strip {t : List Char}
    (h : bracketMatchLen t = none) : bracketMatchLen (stripIdxL t) = none := by
  rw [bracketMatchLen] at h
  rcases hm : lastCloseIdx (t.takeWhile parenFreeChar) with - | j
  swap
  · rw [hm] at h; cases h
  have hnoc : (']' : Char) ∉ t.takeWhile parenFreeChar := lastCloseIdx_eq_none_iff.mp hm
  rcases hdw : t.dropWhile parenFreeChar with - | ⟨p, v⟩
  · have ht : t.takeWhile parenFreeChar = t := by
      have h3 := List.takeWhile_append_dropWhile (p := parenFreeChar) (l := t)
      rw [hdw] at h3
      simpa using h3
    rw [ht] at hnoc
    have hall : ∀ c ∈ t, parenFreeChar c = true := by
      intro c hmem
      exact mem_takeWhile_true (ht.symm ▸ hmem)
    have hsub := stripIdxL_sublist t
    rw [bracketMatchLen]
    rw [takeWhile_all (fun c hm2 => hall c (hsub.subset hm2))]
    rw [lastCloseIdx_eq_none_iff.mpr (fun hm2 => hnoc (hsub.subset hm2))]
  · have hp : parenFreeChar p = false := dropWhile_head_false hdw
    have ht : t = t.takeWhile parenFreeChar ++ p :: v := by
      have h3 := List.takeWhile_append_dropWhile (p := parenFreeChar) (l := t)
      rw [hdw] at h3
      exact h3.symm
    have halltw : ∀ c ∈ t.takeWhile parenFreeChar, parenFreeChar c = true :=
      fun c hmem => mem_takeWhile_true hmem
    have hsplit := stripIdxL_append_paren hp (t.takeWhile parenFreeChar) v halltw
    rw [bracketMatchLen]
    conv =>
      lhs
      rw [ht, hsplit]
    have hsub := stripIdxL_sublist (t.takeWhile parenFreeChar)
    rw [takeWhile_append_block (stripIdxL v) hp
      (fun c hm2 => halltw c (hsub.subset hm2))]
    rw [lastCloseIdx_eq_none_iff.mpr (fun hm2 => hnoc (hsub.subset hm2))]

theorem stripIdxL_cleanAll : ∀ s : List Char, cleanB (stripIdxL s) = true := by
  have main : ∀ n (s : List Char), s.length ≤ n → cleanB (stripIdxL s) = true := by
    intro n
    induction n with
    | zero =>
      intro s hs
      have hs0 : s = [] := List.eq_nil_of_length_eq_zero (by omega)
      subst hs0
      rw [stripIdxL_nil]
      rfl
    | succ n ih =>
      intro s hs
      cases s with
      | nil =>
        rw [stripIdxL_nil]
        rfl
      | cons c t =>
        by_cases hbr : c = '['
        · subst hbr
          rcases hm : bracketMatchLen t with - | k
          · rw [stripIdxL_cons_none hm]
            rw [cleanB, Bool.and_eq_true]
            refine ⟨?_, ih t (by simp at hs; omega)⟩
            rw [if_pos rfl]
            rw [bracketMatchLen_none_strip hm]
            rfl
          · rw [stripIdxL_cons_some hm]
            exact ih (t.drop k) (by simp at hs ⊢; omega)
        · rw [stripIdxL_cons_not_bracket hbr]
          rw [cleanB, Bool.and_eq_true]
          exact ⟨by rw [if_neg hbr], ih t (by simp at hs; omega)⟩
  exact fun s => main s.length s le_rfl

theorem stripIdxL_idem (s : List Char) : stripIdxL (stripIdxL s) = stripIdxL s :=
  stripIdxL_of_cleanB (stripIdxL_cleanAll s)

/-- Claim C8, counterexample: the regex `\[[^()]*\]` is greedy, so on
`"DATA.a.<array>[0].b.<array>[1].c"` the single match runs from the first
`'['` to the last `']'` and removes `".b.<array>"` along with the indices;
the property name `b` between the two indexed segments is not preserved,
refuting the claim that only the bracketed segments are removed. -/
theorem c8_counterexample :
    stripIndices "DATA.a.<array>[0].b.<array>[1].c" = "DATA.a.<array>.c" ∧
    ("DATA.a.<array>.c" : String) ≠ "DATA.a.<array>.b.<array>.c" :=
  ⟨rfl, by decide⟩

/-- Claim C8 as amended: the index stripper is idempotent on every path,
but it does not preserve all characters outside bracketed segments: each
match extends greedily from a `'['` to the last `']'` reachable without
crossing a parenthesis, so the text between two bracketed segments is
removed together with them (on the two-index path the segment `".b"` is
deleted). -/
theorem c8_strip_idempotent_but_greedy :
    (∀ s : String, stripIndices (stripIndices s) = stripIndices s) ∧
    stripIndices "DATA.a.<array>[0].b.<array>[1].c" = "DATA.a.<array>.c" := by
  constructor
  · intro s
    cases s with
    | mk data => exact congrArg String.mk (stripIdxL_idem data)
  · rfl

end JsonCompare
